import Mathlib

/-!
Verification of the IPC-client core of MathHelper (src/MathHelper-1.0-release.py).

The development shallowly embeds the Python code: the opcode constants, the
exact-read loop `_recv_exactly`, the candidate-connection loops of
`WinDiscordIpcClient._connect` and `UnixDiscordIpcClient._connect`, the
`close` method (whose try/finally control flow is executed by a tiny
statement interpreter), the handshake acceptance test `_do_handshake`, the
frame codec of `send`/`recv` (JSON serialization mirroring
`json.dumps(data, separators=(",", ":"))` and parsing mirroring
`json.loads`, UTF-8 byte encoding, and the `struct.pack("<II", ...)`
header), and `set_activity` together with the `uuid.uuid4` nonce source.

Machine integers are modelled as `Nat` with explicit bounds where the
Python `struct` module imposes them.  Fallible operations return `Option`
or carry explicit outcome datatypes.  Loops whose termination is in
question are given a fuel parameter: a result of `none` for every fuel
means the source loop does not terminate.
-/

namespace MathHelper

/-- Opcode constants, from lines 15..19 of the source. -/
def OP_HANDSHAKE : Nat := 0

def OP_FRAME : Nat := 1

def OP_CLOSE : Nat := 2

def OP_PING : Nat := 3

def OP_PONG : Nat := 4

/-! ## The exact-read loop `_recv_exactly` (source lines 78..85)

The transport primitive `_recv(size)` is modelled by a stream
`reads : Nat → List Nat` giving the chunk the transport would hand back on
the k-th call; the code truncates nothing, but a real transport returns at
most `size` bytes, so the model takes `(reads k).take remaining`.  The
Python loop `while size_remaining:` has no bound; the embedding runs it for
`fuel` iterations and answers `none` when the loop is still running. -/

def recvExactlyFuel (reads : Nat → List Nat) : Nat → Nat → Nat → List Nat → Option (List Nat)
  | 0, _, _, _ => none
  | fuel + 1, k, remaining, buf =>
    if remaining = 0 then some buf
    else
      let chunk := (reads k).take remaining
      recvExactlyFuel reads fuel (k + 1) (remaining - chunk.length) (buf ++ chunk)

/-! ## Candidate connection loops (source lines 141..153 and 168..183)

Both `_connect` methods run `for i in range(10)` and, in the for-else arm
taken when no candidate was opened, execute
`return DiscordIpcError("Failed to connect to Discord pipe")` — a normal
return of an exception value, not a raise.  The outcome type distinguishes
the three behaviours a `_connect` body could have, and the embedding shows
which one the code takes. -/

inductive ConnectOutcome where
  /-- a candidate was opened; its index is recorded -/
  | connected (i : Nat) : ConnectOutcome
  /-- the loop exhausted all candidates and the method RETURNED (normally)
      a `DiscordIpcError` value, so `__init__` continues -/
  | returnedNotRaised : ConnectOutcome
  /-- an exception propagated out of `_connect` (the code has no such path
      when every open attempt fails with OSError) -/
  | raised : ConnectOutcome
deriving DecidableEq, Repr

/-- Windows loop: `for i in range(10): try open(path) except OSError: log else: break`.
`canOpen i` says whether `open` on candidate `i` succeeds. -/
def winConnectLoop (canOpen : Nat → Bool) : List Nat → ConnectOutcome
  | [] => .returnedNotRaised
  | i :: rest => if canOpen i then .connected i else winConnectLoop canOpen rest

def winConnect (canOpen : Nat → Bool) : ConnectOutcome :=
  winConnectLoop canOpen (List.range 10)

/-- Unix loop: skips candidates whose socket path does not exist, then tries
`sock.connect`; an OSError is logged and the loop continues. -/
def unixConnectLoop (pathExists canConnect : Nat → Bool) : List Nat → ConnectOutcome
  | [] => .returnedNotRaised
  | i :: rest =>
    if pathExists i = false then unixConnectLoop pathExists canConnect rest
    else if canConnect i then .connected i
    else unixConnectLoop pathExists canConnect rest

def unixConnect (pathExists canConnect : Nat → Bool) : ConnectOutcome :=
  unixConnectLoop pathExists canConnect (List.range 10)

/-! ## The `close` method (source lines 87..92)

    def close(self):
        try:
            self.send(\x7b\x7d, op=OP_CLOSE)
        finally:
            self._close()

The two primitive actions may each raise; the environment records the error
each would raise, if any.  A tiny statement interpreter executes Python
try/finally semantics: the finaliser always runs, and an exception raised
by the finaliser replaces a pending one. -/

inductive PyErr where
  | osError : PyErr
  | brokenPipe : PyErr
deriving DecidableEq, Repr

structure CloseEnv where
  /-- error the Close-frame `send` (its `_write`) raises, if any -/
  sendErr : Option PyErr
  /-- error the transport release `_close` raises, if any -/
  closeErr : Option PyErr

structure CloseState where
  /-- number of completed calls to `send(\x7b\x7d, op=OP_CLOSE)` -/
  sendCalls : Nat
  /-- number of calls to the transport `_close` -/
  closeCalls : Nat
  /-- exception currently propagating, if any -/
  exc : Option PyErr
deriving DecidableEq, Repr

inductive CloseStmt where
  | sendCloseFrame : CloseStmt
  | closeTransport : CloseStmt
  | tryFinally (body finaliser : CloseStmt) : CloseStmt

/-- Executes a statement under Python exception semantics: a primitive is
skipped when an exception is propagating; `tryFinally` always runs the
finaliser, whose exception (if any) supersedes the body's. -/
def execClose (env : CloseEnv) : CloseStmt → CloseState → CloseState
  | .sendCloseFrame, st =>
    if st.exc.isSome then st
    else { st with sendCalls := st.sendCalls + 1, exc := env.sendErr }
  | .closeTransport, st =>
    if st.exc.isSome then st
    else { st with closeCalls := st.closeCalls + 1, exc := env.closeErr }
  | .tryFinally body fin, st =>
    if st.exc.isSome then st
    else
      let s1 := execClose env body st
      let s2 := execClose env fin { s1 with exc := none }
      { s2 with exc := s2.exc.orElse fun _ => s1.exc }

/-- The body of `DiscordIpcClient.close`. -/
def closeProgram : CloseStmt :=
  .tryFinally .sendCloseFrame .closeTransport

def closeInit : CloseState := { sendCalls := 0, closeCalls := 0, exc := none }

/-- Runs `close()` in the given environment. -/
def closeRun (env : CloseEnv) : CloseState :=
  execClose env closeProgram closeInit

/-! ## JSON values

The payloads the client sends and receives are the Python values the `json`
module handles in this program: `None`, booleans, integers, strings, lists
and string-keyed dicts (no floats occur).  Lists and dicts are represented
by dedicated mutual inductives so that mutual recursion and induction over
the nesting are structural. -/

mutual

inductive JVal where
  | jnull : JVal
  | jbool (b : Bool) : JVal
  | jint (n : Int) : JVal
  | jstr (s : List Char) : JVal
  | jarr (xs : JArr) : JVal
  | jobj (kvs : JObj) : JVal
deriving DecidableEq

inductive JArr where
  | nil : JArr
  | cons (v : JVal) (tl : JArr) : JArr
deriving DecidableEq

inductive JObj where
  | nil : JObj
  | cons (k : List Char) (v : JVal) (tl : JObj) : JObj
deriving DecidableEq

end

/-- Dict lookup.  A Python dict built by `json.loads` keeps the last of any
duplicate keys, so lookup scans left to right letting later entries win. -/
def jget (k : List Char) : JObj → Option JVal
  | .nil => none
  | .cons k0 v tl => match jget k tl with
    | some r => some r
    | none => if k0 = k then some v else none

/-! ## The handshake acceptance test `_do_handshake` (source lines 56..64)

    ret_op, ret_data = self.send_recv(..., op=OP_HANDSHAKE)
    if ret_op == OP_FRAME and ret_data["cmd"] == "DISPATCH" and ret_data["evt"] == "READY":
        return
    else:
        if ret_op == OP_CLOSE:
            self.close()
        raise RuntimeError(ret_data)

The condition is evaluated with Python short-circuiting: the subscript
`ret_data["cmd"]` is only evaluated when `ret_op == OP_FRAME`, and
`ret_data["evt"]` only when the cmd comparison succeeded; a missing key
raises `KeyError` out of the condition itself.  `hsCond` returns either the
boolean value of the condition or the key whose lookup raised. -/

def keyCmd : List Char := ['c', 'm', 'd']

def keyEvt : List Char := ['e', 'v', 't']

/-- The string constant DISPATCH compared against the cmd field. -/
def valDISPATCH : JVal := .jstr ['D', 'I', 'S', 'P', 'A', 'T', 'C', 'H']

/-- The string constant READY compared against the evt field. -/
def valREADY : JVal := .jstr ['R', 'E', 'A', 'D', 'Y']

/-- Evaluation of the subexpression `ret_data["evt"] == "READY"` given the
result of the evt lookup. -/
def hsCondEvt : Option JVal → Except (List Char) Bool
  | none => .error keyEvt
  | some e => .ok (e = valREADY)

/-- Evaluation of `ret_data["cmd"] == "DISPATCH" and ret_data["evt"] == "READY"`
given the result of the cmd lookup, with Python short-circuiting: the evt
lookup only happens when the cmd comparison succeeded. -/
def hsCondCmd : Option JVal → JObj → Except (List Char) Bool
  | none, _ => .error keyCmd
  | some c, kvs =>
    if c = valDISPATCH then hsCondEvt (jget keyEvt kvs) else .ok false

def hsCondObj (kvs : JObj) : Except (List Char) Bool :=
  hsCondCmd (jget keyCmd kvs) kvs

/-- Subscripting a non-dict payload also fails; the code would raise
(a TypeError rather than a KeyError, collapsed here into the error case). -/
def hsCondData : JVal → Except (List Char) Bool
  | .jobj kvs => hsCondObj kvs
  | _ => .error keyCmd

def hsCond (retOp : Nat) (retData : JVal) : Except (List Char) Bool :=
  if retOp = OP_FRAME then hsCondData retData else .ok false

inductive HsOutcome where
  /-- handshake accepted: `_do_handshake` returns normally -/
  | accepted : HsOutcome
  /-- `raise RuntimeError(ret_data)` reached with the received payload -/
  | runtimeErr (payload : JVal) : HsOutcome
  /-- a `KeyError` for the named key escaped the acceptance condition -/
  | keyErr (k : List Char) : HsOutcome
  /-- `self.close()` itself raised, pre-empting the RuntimeError -/
  | closeRaised (e : PyErr) : HsOutcome
deriving DecidableEq

structure HsResult where
  outcome : HsOutcome
  /-- whether the transport `_close` ran during the handshake -/
  transportClosed : Bool
deriving DecidableEq

/-- Handshake behaviour as a function of the received frame.  `closeEnv`
provides the error behaviour of the transport primitives for the nested
`self.close()` call taken on the `OP_CLOSE` branch. -/
def doHandshake (closeEnv : CloseEnv) (retOp : Nat) (retData : JVal) : HsResult :=
  match hsCond retOp retData with
  | .error k => { outcome := .keyErr k, transportClosed := false }
  | .ok true => { outcome := .accepted, transportClosed := false }
  | .ok false =>
    if retOp = OP_CLOSE then
      let st := closeRun closeEnv
      { outcome := match st.exc with
          | some e => .closeRaised e
          | none => .runtimeErr retData
        transportClosed := decide (0 < st.closeCalls) }
    else { outcome := .runtimeErr retData, transportClosed := false }

/-! ## The frame codec of `send` and `recv` (source lines 108..124)

`send` serializes the payload with `json.dumps(data, separators=(",", ":"))`
(compact, `ensure_ascii` defaulting to true), encodes it as UTF-8, and
prepends `struct.pack("<II", op, len(data_bytes))`.  `recv` reads the
8-byte header, unpacks it with `struct.unpack("<II", ...)`, reads exactly
`length` payload bytes and runs `json.loads` on their UTF-8 decoding.

The serializer below mirrors the `json.dumps` output format: `null`,
`true`/`false`, decimal integers, double-quoted strings with the
two-character escapes, `\uXXXX` escapes (with surrogate pairs) for
non-printable and non-ASCII characters, and comma/colon separated arrays
and objects with no whitespace.  The parser mirrors `json.loads` on such
input; it takes a fuel argument because its recursion is on the nesting
depth, not on the input list.  (It does not skip whitespace, accepts the
escape set `json.loads` accepts, and rejects lone-surrogate escapes, which
Lean `Char` cannot represent; none of these occur in the codec's own
output, the only input the round-trip feeds it.) -/

def qchar : Char := Char.ofNat 34

def bslash : Char := Char.ofNat 92

def lbrace : Char := Char.ofNat 123

def rbrace : Char := Char.ofNat 125

def digitChar (d : Nat) : Char := Char.ofNat (48 + d)

/-- Decimal digits of `n`, most significant first, via the usual
divide-by-ten recursion; `fuel` bounds the recursion depth and any
`fuel > n` is enough. -/
def natDigsAux : Nat → Nat → List Char
  | 0, _ => []
  | fuel + 1, n =>
    if n < 10 then [digitChar n]
    else natDigsAux fuel (n / 10) ++ [digitChar (n % 10)]

def natChars (n : Nat) : List Char := natDigsAux (n + 1) n

/-- Python `repr` of an int, as used by `json.dumps`. -/
def intChars : Int → List Char
  | .ofNat n => natChars n
  | .negSucc m => '-' :: natChars (m + 1)

def hexDigitChar (d : Nat) : Char :=
  Char.ofNat (if d < 10 then 48 + d else 87 + d)

/-- Lowercase hex rendering of `n` in exactly `w` digits (zero padded),
most significant first, as Python `"%0wx" % n` for `n < 16 ^ w`. -/
def hexN : Nat → Nat → List Char
  | 0, _ => []
  | w + 1, n => hexDigitChar (n / 16 ^ w) :: hexN w (n % 16 ^ w)

/-- Escaping of one character per `json.dumps` with `ensure_ascii=True`:
the two-character shortcuts, printable ASCII literally, everything else as
`\uXXXX` (using a surrogate pair beyond the basic multilingual plane). -/
def escChar (c : Char) : List Char :=
  let n := c.toNat
  if c = qchar then [bslash, qchar]
  else if c = bslash then [bslash, bslash]
  else if n = 8 then [bslash, 'b']
  else if n = 9 then [bslash, 't']
  else if n = 10 then [bslash, 'n']
  else if n = 12 then [bslash, 'f']
  else if n = 13 then [bslash, 'r']
  else if 32 ≤ n ∧ n ≤ 126 then [c]
  else if n < 65536 then bslash :: 'u' :: hexN 4 n
  else (bslash :: 'u' :: hexN 4 (55296 + (n - 65536) / 1024))
    ++ (bslash :: 'u' :: hexN 4 (56320 + (n - 65536) % 1024))

def escBody : List Char → List Char
  | [] => []
  | c :: cs => escChar c ++ escBody cs

/-- A JSON string token: quote, escaped body, quote. -/
def escString (s : List Char) : List Char := qchar :: (escBody s ++ [qchar])

mutual

/-- Compact serialization mirroring
`json.dumps(data, separators=(",", ":"))`. -/
def jser : JVal → List Char
  | .jnull => ['n', 'u', 'l', 'l']
  | .jbool true => ['t', 'r', 'u', 'e']
  | .jbool false => ['f', 'a', 'l', 's', 'e']
  | .jint n => intChars n
  | .jstr s => escString s
  | .jarr .nil => ['[', ']']
  | .jarr (.cons v tl) => ('[' :: (jser v ++ jserArrRest tl)) ++ [']']
  | .jobj .nil => [lbrace, rbrace]
  | .jobj (.cons k v tl) =>
    (lbrace :: (escString k ++ (':' :: jser v) ++ jserObjRest tl)) ++ [rbrace]

/-- Comma-prefixed serializations of the remaining array elements. -/
def jserArrRest : JArr → List Char
  | .nil => []
  | .cons v tl => (',' :: jser v) ++ jserArrRest tl

/-- Comma-prefixed serializations of the remaining object entries. -/
def jserObjRest : JObj → List Char
  | .nil => []
  | .cons k v tl => (',' :: (escString k ++ (':' :: jser v))) ++ jserObjRest tl

end

def hexVal (c : Char) : Option Nat :=
  let n := c.toNat
  if 48 ≤ n ∧ n ≤ 57 then some (n - 48)
  else if 97 ≤ n ∧ n ≤ 102 then some (n - 87)
  else if 65 ≤ n ∧ n ≤ 70 then some (n - 55)
  else none

/-- Reads exactly four hex digits. -/
def parseHex4 : List Char → Option (Nat × List Char)
  | c1 :: c2 :: c3 :: c4 :: rest =>
    match hexVal c1, hexVal c2, hexVal c3, hexVal c4 with
    | some d1, some d2, some d3, some d4 =>
      some (((d1 * 16 + d2) * 16 + d3) * 16 + d4, rest)
    | _, _, _, _ => none
  | _ => none

/-! The body of a JSON string after the opening quote is scanned by four
mutually recursive functions mirroring the `json.loads` string scanner:
the plain-character loop, the escape dispatch after a backslash, the
`\uXXXX` reader, and the low-surrogate continuation.  Handles the short
escapes, `\uXXXX`, and surrogate pairs; rejects unescaped control
characters and lone surrogates (which Lean `Char` cannot carry).  The
`fuel` argument bounds the recursion; any `fuel` exceeding the number of
characters scanned is enough, and callers pass the input length. -/

mutual

def parseStrBody : Nat → List Char → Option (List Char × List Char)
  | 0, _ => none
  | _ + 1, [] => none
  | fuel + 1, c :: rest =>
    if c = qchar then some ([], rest)
    else if c = bslash then parseEsc fuel rest
    else if c.toNat < 32 then none
    else (parseStrBody fuel rest).map (fun p => (c :: p.1, p.2))

def parseEsc : Nat → List Char → Option (List Char × List Char)
  | 0, _ => none
  | _ + 1, [] => none
  | fuel + 1, e :: rest2 =>
    if e = qchar then (parseStrBody fuel rest2).map (fun p => (qchar :: p.1, p.2))
    else if e = bslash then (parseStrBody fuel rest2).map (fun p => (bslash :: p.1, p.2))
    else if e = '/' then (parseStrBody fuel rest2).map (fun p => ('/' :: p.1, p.2))
    else if e = 'b' then (parseStrBody fuel rest2).map (fun p => (Char.ofNat 8 :: p.1, p.2))
    else if e = 'f' then (parseStrBody fuel rest2).map (fun p => (Char.ofNat 12 :: p.1, p.2))
    else if e = 'n' then (parseStrBody fuel rest2).map (fun p => (Char.ofNat 10 :: p.1, p.2))
    else if e = 'r' then (parseStrBody fuel rest2).map (fun p => (Char.ofNat 13 :: p.1, p.2))
    else if e = 't' then (parseStrBody fuel rest2).map (fun p => (Char.ofNat 9 :: p.1, p.2))
    else if e = 'u' then parseUEsc fuel rest2
    else none

def parseUEsc : Nat → List Char → Option (List Char × List Char)
  | 0, _ => none
  | fuel + 1, s => parseUEscCont (fuel + 1) (parseHex4 s)

/-- Continuation after the four hex digits of a `\uXXXX` escape were
read (or failed to read). -/
def parseUEscCont : Nat → Option (Nat × List Char) → Option (List Char × List Char)
  | 0, _ => none
  | _ + 1, none => none
  | fuel + 1, some (n, rest3) =>
    if 55296 ≤ n ∧ n < 56320 then parseLowSur fuel n rest3
    else if 56320 ≤ n ∧ n < 57344 then none
    else (parseStrBody fuel rest3).map (fun p => (Char.ofNat n :: p.1, p.2))

def parseLowSur : Nat → Nat → List Char → Option (List Char × List Char)
  | 0, _, _ => none
  | fuel + 1, n, b1 :: u2 :: s =>
    if b1 = bslash ∧ u2 = 'u' then parseLowSurCont (fuel + 1) n (parseHex4 s)
    else none
  | _ + 1, _, _ => none

/-- Continuation after the four hex digits of the low-surrogate escape. -/
def parseLowSurCont : Nat → Nat → Option (Nat × List Char) → Option (List Char × List Char)
  | 0, _, _ => none
  | _ + 1, _, none => none
  | fuel + 1, n, some (m, rest4) =>
    if 56320 ≤ m ∧ m < 57344 then
      (parseStrBody fuel rest4).map (fun p =>
        (Char.ofNat (65536 + (n - 55296) * 1024 + (m - 56320)) :: p.1, p.2))
    else none

end

def isDigitCh (c : Char) : Bool := decide (48 ≤ c.toNat ∧ c.toNat ≤ 57)

def digitsVal (ds : List Char) : Nat :=
  ds.foldl (fun a c => 10 * a + (c.toNat - 48)) 0

/-- Parses a maximal nonempty run of decimal digits. -/
def parseNatTok (s : List Char) : Option (Nat × List Char) :=
  let ds := s.takeWhile isDigitCh
  if ds = [] then none else some (digitsVal ds, s.dropWhile isDigitCh)

/-- Parses a JSON integer (optional leading minus). -/
def parseIntTok : List Char → Option (Int × List Char)
  | [] => none
  | c :: rest =>
    if c = '-' then (parseNatTok rest).map (fun p => (-(p.1 : Int), p.2))
    else (parseNatTok (c :: rest)).map (fun p => ((p.1 : Int), p.2))

mutual

/-- Recursive-descent JSON value reader mirroring `json.loads` on
whitespace-free input; `fuel` bounds the nesting depth. -/
def jparse : Nat → List Char → Option (JVal × List Char)
  | 0, _ => none
  | fuel + 1, s =>
    match s with
    | [] => none
    | c :: rest =>
      if c = qchar then
        (parseStrBody (rest.length + 1) rest).map (fun p => (JVal.jstr p.1, p.2))
      else if c = '[' then
        match rest with
        | [] => none
        | r :: rest2 =>
          if r = ']' then some (.jarr .nil, rest2)
          else (jparseArrItems fuel rest).map (fun p => (JVal.jarr p.1, p.2))
      else if c = lbrace then
        match rest with
        | [] => none
        | r :: rest2 =>
          if r = rbrace then some (.jobj .nil, rest2)
          else (jparseObjItems fuel rest).map (fun p => (JVal.jobj p.1, p.2))
      else if c = 'n' then
        match rest with
        | 'u' :: 'l' :: 'l' :: rest2 => some (.jnull, rest2)
        | _ => none
      else if c = 't' then
        match rest with
        | 'r' :: 'u' :: 'e' :: rest2 => some (.jbool true, rest2)
        | _ => none
      else if c = 'f' then
        match rest with
        | 'a' :: 'l' :: 's' :: 'e' :: rest2 => some (.jbool false, rest2)
        | _ => none
      else (parseIntTok (c :: rest)).map (fun p => (JVal.jint p.1, p.2))

/-- Reads one or more comma-separated elements then the closing bracket. -/
def jparseArrItems : Nat → List Char → Option (JArr × List Char)
  | 0, _ => none
  | fuel + 1, s =>
    match jparse fuel s with
    | none => none
    | some (v, rest) =>
      match rest with
      | ',' :: rest2 => (jparseArrItems fuel rest2).map (fun p => (JArr.cons v p.1, p.2))
      | ']' :: rest2 => some (.cons v .nil, rest2)
      | _ => none

/-- Reads one or more comma-separated key-value entries then the closing
brace. -/
def jparseObjItems : Nat → List Char → Option (JObj × List Char)
  | 0, _ => none
  | fuel + 1, s =>
    match s with
    | [] => none
    | c :: rest =>
      if c = qchar then
        match parseStrBody (rest.length + 1) rest with
        | none => none
        | some (k, rest2) =>
          match rest2 with
          | ':' :: rest3 =>
            match jparse fuel rest3 with
            | none => none
            | some (v, rest4) =>
              match rest4 with
              | ',' :: rest5 =>
                (jparseObjItems fuel rest5).map (fun p => (JObj.cons k v p.1, p.2))
              | r :: rest5 => if r = rbrace then some (.cons k v .nil, rest5) else none
              | [] => none
          | _ => none
      else none

end

/-! ## UTF-8, the binary header, and the assembled send and recv -/

/-- UTF-8 encoding of one scalar value, per the standard 1..4-byte
scheme used by Python `str.encode("utf-8")`. -/
def utf8EncChar (c : Char) : List Nat :=
  let n := c.toNat
  if n < 128 then [n]
  else if n < 2048 then [192 + n / 64, 128 + n % 64]
  else if n < 65536 then [224 + n / 4096, 128 + n / 64 % 64, 128 + n % 64]
  else [240 + n / 262144, 128 + n / 4096 % 64, 128 + n / 64 % 64, 128 + n % 64]

def utf8Encode : List Char → List Nat
  | [] => []
  | c :: cs => utf8EncChar c ++ utf8Encode cs

def isCont (b : Nat) : Bool := decide (128 ≤ b ∧ b < 192)

/-! UTF-8 decoding, as `bytes.decode("utf-8")`: the lead byte selects how
many continuation bytes follow; stray continuation bytes, truncated
sequences and scalar values outside the valid range are rejected (overlong
forms are not; they never arise from `utf8Encode`).  The helpers accumulate
the scalar value across the continuation bytes; `fuel` bounds the
recursion, one unit per input byte, so any `fuel` exceeding the input
length is enough. -/

mutual

def utf8Decode : Nat → List Nat → Option (List Char)
  | 0, _ => none
  | _ + 1, [] => some []
  | fuel + 1, b :: bs =>
    if b < 128 then (utf8Decode fuel bs).map (fun cs => Char.ofNat b :: cs)
    else if b < 192 then none
    else if b < 224 then utf8Cont1 fuel ((b - 192) * 64) bs
    else if b < 240 then utf8Cont2 fuel ((b - 224) * 4096) bs
    else if b < 248 then utf8Cont3 fuel ((b - 240) * 262144) bs
    else none

/-- Final continuation byte: completes and checks the scalar value. -/
def utf8Cont1 : Nat → Nat → List Nat → Option (List Char)
  | 0, _, _ => none
  | _ + 1, _, [] => none
  | fuel + 1, acc, b2 :: bs =>
    if isCont b2 then
      if (acc + (b2 - 128)).isValidChar then
        (utf8Decode fuel bs).map (fun cs => Char.ofNat (acc + (b2 - 128)) :: cs)
      else none
    else none

/-- Second-to-last continuation byte. -/
def utf8Cont2 : Nat → Nat → List Nat → Option (List Char)
  | 0, _, _ => none
  | _ + 1, _, [] => none
  | fuel + 1, acc, b2 :: bs =>
    if isCont b2 then utf8Cont1 fuel (acc + (b2 - 128) * 64) bs else none

/-- Third-to-last continuation byte. -/
def utf8Cont3 : Nat → Nat → List Nat → Option (List Char)
  | 0, _, _ => none
  | _ + 1, _, [] => none
  | fuel + 1, acc, b2 :: bs =>
    if isCont b2 then utf8Cont2 fuel (acc + (b2 - 128) * 4096) bs else none

end

/-- The 4 little-endian base-256 digits of `n`, as `struct.pack("<I", n)`
emits for `n < 2 ^ 32`. -/
def packLE4 (n : Nat) : List Nat :=
  [n % 256, n / 256 % 256, n / 65536 % 256, n / 16777216 % 256]

/-- Value of 4 bytes read little-endian, as `struct.unpack("<I", ...)`. -/
def le4val (b0 b1 b2 b3 : Nat) : Nat := b0 + 256 * (b1 + 256 * (b2 + 256 * b3))

/-- Model of `struct.pack("<II", a, b)`: fails (struct.error) when either
value does not fit an unsigned 32-bit field. -/
def packII (a b : Nat) : Option (List Nat) :=
  if a < 4294967296 ∧ b < 4294967296 then some (packLE4 a ++ packLE4 b) else none

/-- Model of `struct.unpack("<II", data)`: requires exactly 8 bytes. -/
def unpackII : List Nat → Option (Nat × Nat)
  | [b0, b1, b2, b3, b4, b5, b6, b7] => some (le4val b0 b1 b2 b3, le4val b4 b5 b6 b7)
  | _ => none

/-- The bytes `send(data, op)` hands to `_write`: JSON-serialize, UTF-8
encode, prepend the packed header. -/
def sendBytes (op : Nat) (data : JVal) : Option (List Nat) :=
  let dataBytes := utf8Encode (jser data)
  (packII op dataBytes.length).map (fun header => header ++ dataBytes)

/-- The `_recv_exactly` loop read against a transport holding `buf`
buffered bytes, whose `_recv(size)` hands over up to `size` of them;
returns the bytes read and the remaining buffer. -/
def recvExactlyBuf : Nat → Nat → List Nat → List Nat → Option (List Nat × List Nat)
  | 0, _, _, _ => none
  | fuel + 1, remaining, buf, acc =>
    if remaining = 0 then some (acc, buf)
    else
      let chunk := buf.take remaining
      recvExactlyBuf fuel (remaining - chunk.length) (buf.drop chunk.length) (acc ++ chunk)

/-- Model of `json.loads`: parse one value and require the input to be
fully consumed. -/
def jloads (s : List Char) : Option JVal :=
  match jparse (2 * s.length + 2) s with
  | some (v, []) => some v
  | _ => none

/-- The `recv` method against a transport holding `buf` buffered bytes:
read 8 header bytes, unpack opcode and length, read exactly `length`
payload bytes, UTF-8 decode and JSON parse them. -/
def recvBytes (buf : List Nat) : Option (Nat × JVal) :=
  match recvExactlyBuf (buf.length + 2) 8 buf [] with
  | none => none
  | some (header, buf1) =>
    match unpackII header with
    | none => none
    | some (op, len) =>
      match recvExactlyBuf (buf1.length + 2) len buf1 [] with
      | none => none
      | some (payload, _) =>
        match utf8Decode (payload.length + 1) payload with
        | none => none
        | some s => (jloads s).map (fun v => (op, v))

/-! ## `set_activity` (source lines 126..134) and its uuid4 nonce

`set_activity(act)` builds the dict
with entries cmd = SET_ACTIVITY, args = (pid, activity) and
nonce = str(uuid.uuid4()), then performs exactly one `send(data)` with the
default opcode `OP_FRAME`.  `uuid.uuid4()` draws 16 random bytes
(a 128-bit value `r`), forces the RFC 4122 version-4 and variant bits, and
`str()` renders 32 lowercase hex digits in 8-4-4-4-12 groups. -/

/-- The version/variant masking `uuid.UUID(bytes=..., version=4)` applies
to the 128-bit random value: bits 62..63 become `10` and bits 76..79
become `0100`. -/
def uuid4Mask (r : Nat) : Nat :=
  r % 4611686018427387904
    + 9223372036854775808
    + (r / 18446744073709551616 % 4096) * 18446744073709551616
    + 302231454903657293676544
    + (r / 1208925819614629174706176 % 281474976710656) * 1208925819614629174706176

/-- Rendering of `str(uuid.UUID(int=u))`: 32 lowercase hex digits in
8-4-4-4-12 groups separated by hyphens. -/
def uuidStr (u : Nat) : List Char :=
  hexN 8 (u / 79228162514264337593543950336)
    ++ '-' :: hexN 4 (u / 1208925819614629174706176 % 65536)
    ++ '-' :: hexN 4 (u / 18446744073709551616 % 65536)
    ++ '-' :: hexN 4 (u / 281474976710656 % 65536)
    ++ '-' :: hexN 12 (u % 281474976710656)

def keyArgs : List Char := ['a', 'r', 'g', 's']

def keyPid : List Char := ['p', 'i', 'd']

def keyActivity : List Char := ['a', 'c', 't', 'i', 'v', 'i', 't', 'y']

def keyNonce : List Char := ['n', 'o', 'n', 'c', 'e']

def valSET_ACTIVITY : JVal :=
  .jstr ['S', 'E', 'T', '_', 'A', 'C', 'T', 'I', 'V', 'I', 'T', 'Y']

/-- The dict `set_activity` builds, in the source's insertion order. -/
def setActivityData (pid : Int) (nonce : List Char) (act : JVal) : JVal :=
  .jobj (.cons keyCmd valSET_ACTIVITY
    (.cons keyArgs (.jobj (.cons keyPid (.jint pid)
      (.cons keyActivity act .nil)))
    (.cons keyNonce (.jstr nonce) .nil)))

/-- The frames one `set_activity` call sends, given the process id and the
128-bit random value the call's `uuid.uuid4()` drew. -/
def setActivityFrames (pid : Int) (r : Nat) (act : JVal) : List (Nat × JVal) :=
  [(OP_FRAME, setActivityData pid (uuidStr (uuid4Mask r)) act)]

/-- Desugared head delimiter test: parsing positions that may be followed
by arbitrary input only need the next character to not extend a number
token. -/
def delimOK : List Char → Bool
  | [] => true
  | c :: _ => !(isDigitCh c)

/-! ## Theorems -/

theorem char_toNat_ofNat (n : Nat) (h : n.isValidChar) : (Char.ofNat n).toNat = n := by
  unfold Char.ofNat
  rw [dif_pos h]
  rfl

theorem char_toNat_ofNat_lt (n : Nat) (h : n < 55296) : (Char.ofNat n).toNat = n :=
  char_toNat_ofNat n (Or.inl h)

theorem digitChar_toNat (d : Nat) (h : d < 10) : (digitChar d).toNat = 48 + d :=
  char_toNat_ofNat_lt (48 + d) (by omega)

theorem natDigsAux_digits (fuel : Nat) : ∀ n, n < fuel →
    ∀ c ∈ natDigsAux fuel n, 48 ≤ c.toNat ∧ c.toNat ≤ 57 := by
  induction fuel with
  | zero => intro n h; omega
  | succ fuel ih =>
    intro n h c hc
    simp only [natDigsAux] at hc
    by_cases h10 : n < 10
    · rw [if_pos h10] at hc
      simp only [List.mem_singleton] at hc
      subst hc
      rw [digitChar_toNat n h10]
      omega
    · rw [if_neg h10] at hc
      rcases List.mem_append.mp hc with h1 | h2
      · exact ih (n / 10) (by omega) c h1
      · simp only [List.mem_singleton] at h2
        subst h2
        rw [digitChar_toNat (n % 10) (by omega)]
        omega

theorem natDigsAux_ne_nil (fuel n : Nat) (h : n < fuel) : natDigsAux fuel n ≠ [] := by
  cases fuel with
  | zero => omega
  | succ fuel =>
    simp only [natDigsAux]
    by_cases h10 : n < 10
    · rw [if_pos h10]
      simp
    · rw [if_neg h10]
      simp

theorem digitsVal_natDigsAux (fuel : Nat) : ∀ n, n < fuel →
    digitsVal (natDigsAux fuel n) = n := by
  induction fuel with
  | zero => intro n h; omega
  | succ fuel ih =>
    intro n h
    simp only [natDigsAux]
    by_cases h10 : n < 10
    · rw [if_pos h10]
      simp only [digitsVal, List.foldl_cons, List.foldl_nil]
      rw [digitChar_toNat n h10]
      omega
    · rw [if_neg h10]
      simp only [digitsVal, List.foldl_append, List.foldl_cons, List.foldl_nil]
      have ihv := ih (n / 10) (by omega)
      simp only [digitsVal] at ihv
      rw [ihv, digitChar_toNat (n % 10) (by omega)]
      omega

theorem takeWhile_append_all (p : Char → Bool) (ds rest : List Char)
    (h : ∀ c ∈ ds, p c = true) :
    (ds ++ rest).takeWhile p = ds ++ rest.takeWhile p ∧
    (ds ++ rest).dropWhile p = rest.dropWhile p := by
  induction ds with
  | nil => simp
  | cons c cs ih =>
    have hc := h c (List.mem_cons_self c cs)
    have ihr := ih fun d hd => h d (List.mem_cons_of_mem c hd)
    simp only [List.cons_append, List.takeWhile_cons, List.dropWhile_cons, hc,
      if_true, ihr.1, ihr.2]
    exact ⟨trivial, trivial⟩

theorem takeWhile_delim (rest : List Char) (h : delimOK rest = true) :
    rest.takeWhile isDigitCh = [] ∧ rest.dropWhile isDigitCh = rest := by
  cases rest with
  | nil => simp
  | cons c cs =>
    simp only [delimOK, Bool.not_eq_eq_eq_not, Bool.not_true] at h
    simp [List.takeWhile_cons, List.dropWhile_cons, h]

theorem parseNatTok_natChars (m : Nat) (rest : List Char) (hd : delimOK rest = true) :
    parseNatTok (natChars m ++ rest) = some (m, rest) := by
  unfold parseNatTok natChars
  have hall : ∀ c ∈ natDigsAux (m + 1) m, isDigitCh c = true := by
    intro c hc
    have := natDigsAux_digits (m + 1) m (by omega) c hc
    exact decide_eq_true this
  have htw := takeWhile_append_all isDigitCh (natDigsAux (m + 1) m) rest hall
  have hdl := takeWhile_delim rest hd
  rw [htw.1, htw.2, hdl.1, hdl.2, List.append_nil]
  rw [if_neg (natDigsAux_ne_nil (m + 1) m (by omega))]
  rw [digitsVal_natDigsAux (m + 1) m (by omega)]

theorem parseIntTok_intChars (n : Int) (rest : List Char) (hd : delimOK rest = true) :
    parseIntTok (intChars n ++ rest) = some (n, rest) := by
  cases n with
  | ofNat m =>
    simp only [intChars]
    obtain ⟨c, cs, hc⟩ : ∃ c cs, natChars m = c :: cs := by
      cases h : natChars m with
      | nil => exact absurd h (natDigsAux_ne_nil (m + 1) m (by omega))
      | cons c cs => exact ⟨c, cs, rfl⟩
    have hcd := natDigsAux_digits (m + 1) m (by omega) c (by
      show c ∈ natChars m
      rw [hc]
      exact List.mem_cons_self c cs)
    rw [hc, List.cons_append]
    simp only [parseIntTok]
    rw [if_neg (fun he => by
      rw [he] at hcd
      revert hcd
      decide)]
    rw [← List.cons_append, ← hc]
    rw [parseNatTok_natChars m rest hd]
    rfl
  | negSucc m =>
    simp only [intChars, List.cons_append]
    simp only [parseIntTok, if_true]
    rw [parseNatTok_natChars (m + 1) rest hd]
    simp only [Option.map_some']
    have hns : -((m + 1 : Nat) : Int) = Int.negSucc m := by
      rw [Int.negSucc_eq]
      omega
    rw [hns]

theorem hexDigitChar_toNat (d : Nat) (h : d < 16) :
    (hexDigitChar d).toNat = if d < 10 then 48 + d else 87 + d := by
  unfold hexDigitChar
  by_cases h10 : d < 10
  · rw [if_pos h10]
    exact char_toNat_ofNat_lt _ (by omega)
  · rw [if_neg h10]
    exact char_toNat_ofNat_lt _ (by omega)

theorem hexVal_hexDigitChar (d : Nat) (h : d < 16) : hexVal (hexDigitChar d) = some d := by
  have ht := hexDigitChar_toNat d h
  by_cases h10 : d < 10
  · rw [if_pos h10] at ht
    simp only [hexVal, ht]
    rw [if_pos (by omega : 48 ≤ 48 + d ∧ 48 + d ≤ 57)]
    simp only [Option.some.injEq]
    omega
  · rw [if_neg h10] at ht
    simp only [hexVal, ht]
    rw [if_neg (by omega : ¬(48 ≤ 87 + d ∧ 87 + d ≤ 57))]
    rw [if_pos (by omega : 97 ≤ 87 + d ∧ 87 + d ≤ 102)]
    simp only [Option.some.injEq]
    omega

theorem hexN4_expand (n : Nat) :
    hexN 4 n = [hexDigitChar (n / 4096), hexDigitChar (n % 4096 / 256),
      hexDigitChar (n % 4096 % 256 / 16), hexDigitChar (n % 4096 % 256 % 16)] := by
  simp only [hexN]
  norm_num [Nat.div_one]

theorem char_valid_cases (c : Char) :
    c.toNat < 55296 ∨ (57344 ≤ c.toNat ∧ c.toNat < 1114112) := by
  have h : c.toNat.isValidChar := c.valid
  rcases h with h1 | ⟨h1, h2⟩
  · exact Or.inl h1
  · exact Or.inr ⟨by omega, h2⟩

/-! Step lemmas for the string scanner, one per input head shape the
escaper can emit. -/

theorem parseHex4_digits (d1 d2 d3 d4 : Nat) (x : List Char)
    (h1 : d1 < 16) (h2 : d2 < 16) (h3 : d3 < 16) (h4 : d4 < 16) :
    parseHex4 (hexDigitChar d1 :: hexDigitChar d2 :: hexDigitChar d3 :: hexDigitChar d4 :: x)
      = some (((d1 * 16 + d2) * 16 + d3) * 16 + d4, x) := by
  simp only [parseHex4, hexVal_hexDigitChar d1 h1, hexVal_hexDigitChar d2 h2,
    hexVal_hexDigitChar d3 h3, hexVal_hexDigitChar d4 h4]

theorem parseStrBody_escBody (s : List Char) : ∀ fuel rest,
    (escBody s).length < fuel →
    parseStrBody fuel (escBody s ++ (qchar :: rest)) = some (s, rest) := by
  induction s with
  | nil =>
    intro fuel rest h
    obtain ⟨f, rfl⟩ : ∃ f, fuel = f + 1 := ⟨fuel - 1, by omega⟩
    simp only [escBody, List.nil_append, parseStrBody, ite_true]
  | cons c cs ih =>
    intro fuel rest h
    have hval := char_valid_cases c
    have hl : (escChar c).length + (escBody cs).length < fuel := by
      simpa [escBody] using h
    simp only [escBody, List.append_assoc]
    by_cases h1 : c = qchar
    · subst h1
      have hlc : (escChar qchar).length = 2 := rfl
      rw [show escChar qchar = [bslash, qchar] from rfl]
      simp only [List.cons_append, List.nil_append]
      obtain ⟨f1, rfl⟩ : ∃ f1, fuel = f1 + 1 := ⟨fuel - 1, by omega⟩
      simp only [parseStrBody, ite_true, ite_false]
      obtain ⟨f2, rfl⟩ : ∃ f2, f1 = f2 + 1 := ⟨f1 - 1, by omega⟩
      simp only [parseEsc, ite_true, ite_false]
      rw [ih f2 rest (by omega)]
      rfl
    · by_cases h2 : c = bslash
      · subst h2
        have hlc : (escChar bslash).length = 2 := rfl
        rw [show escChar bslash = [bslash, bslash] from rfl]
        simp only [List.cons_append, List.nil_append]
        obtain ⟨f1, rfl⟩ : ∃ f1, fuel = f1 + 1 := ⟨fuel - 1, by omega⟩
        simp only [parseStrBody, ite_true, ite_false]
        obtain ⟨f2, rfl⟩ : ∃ f2, f1 = f2 + 1 := ⟨f1 - 1, by omega⟩
        simp only [parseEsc, ite_true, ite_false]
        rw [ih f2 rest (by omega)]
        rfl
      · by_cases h3 : c.toNat = 8
        · have hesc : escChar c = [bslash, 'b'] := by
            simp only [escChar]
            rw [if_neg h1, if_neg h2, if_pos h3]
          have hcc : Char.ofNat 8 = c := by
            rw [← h3, Char.ofNat_toNat]
          have hlc : (escChar c).length = 2 := by rw [hesc]; rfl
          rw [hesc]
          simp only [List.cons_append, List.nil_append]
          obtain ⟨f1, rfl⟩ : ∃ f1, fuel = f1 + 1 := ⟨fuel - 1, by omega⟩
          simp only [parseStrBody, ite_true, ite_false]
          obtain ⟨f2, rfl⟩ : ∃ f2, f1 = f2 + 1 := ⟨f1 - 1, by omega⟩
          simp only [parseEsc, ite_true, ite_false]
          rw [ih f2 rest (by omega)]
          simp only [Option.map_some']
          rw [hcc]
          rfl
        · by_cases h4 : c.toNat = 9
          · have hesc : escChar c = [bslash, 't'] := by
              simp only [escChar]
              rw [if_neg h1, if_neg h2, if_neg h3, if_pos h4]
            have hcc : Char.ofNat 9 = c := by
              rw [← h4, Char.ofNat_toNat]
            have hlc : (escChar c).length = 2 := by rw [hesc]; rfl
            rw [hesc]
            simp only [List.cons_append, List.nil_append]
            obtain ⟨f1, rfl⟩ : ∃ f1, fuel = f1 + 1 := ⟨fuel - 1, by omega⟩
            simp only [parseStrBody, ite_true, ite_false]
            obtain ⟨f2, rfl⟩ : ∃ f2, f1 = f2 + 1 := ⟨f1 - 1, by omega⟩
            simp only [parseEsc, ite_true, ite_false]
            rw [ih f2 rest (by omega)]
            simp only [Option.map_some']
            rw [hcc]
            rfl
          · by_cases h5 : c.toNat = 10
            · have hesc : escChar c = [bslash, 'n'] := by
                simp only [escChar]
                rw [if_neg h1, if_neg h2, if_neg h3, if_neg h4, if_pos h5]
              have hcc : Char.ofNat 10 = c := by
                rw [← h5, Char.ofNat_toNat]
              have hlc : (escChar c).length = 2 := by rw [hesc]; rfl
              rw [hesc]
              simp only [List.cons_append, List.nil_append]
              obtain ⟨f1, rfl⟩ : ∃ f1, fuel = f1 + 1 := ⟨fuel - 1, by omega⟩
              simp only [parseStrBody, ite_true, ite_false]
              obtain ⟨f2, rfl⟩ : ∃ f2, f1 = f2 + 1 := ⟨f1 - 1, by omega⟩
              simp only [parseEsc, ite_true, ite_false]
              rw [ih f2 rest (by omega)]
              simp only [Option.map_some']
              rw [hcc]
              rfl
            · by_cases h6 : c.toNat = 12
              · have hesc : escChar c = [bslash, 'f'] := by
                  simp only [escChar]
                  rw [if_neg h1, if_neg h2, if_neg h3, if_neg h4, if_neg h5, if_pos h6]
                have hcc : Char.ofNat 12 = c := by
                  rw [← h6, Char.ofNat_toNat]
                have hlc : (escChar c).length = 2 := by rw [hesc]; rfl
                rw [hesc]
                simp only [List.cons_append, List.nil_append]
                obtain ⟨f1, rfl⟩ : ∃ f1, fuel = f1 + 1 := ⟨fuel - 1, by omega⟩
                simp only [parseStrBody, ite_true, ite_false]
                obtain ⟨f2, rfl⟩ : ∃ f2, f1 = f2 + 1 := ⟨f1 - 1, by omega⟩
                simp only [parseEsc, ite_true, ite_false]
                rw [ih f2 rest (by omega)]
                simp only [Option.map_some']
                rw [hcc]
                rfl
              · by_cases h7 : c.toNat = 13
                · have hesc : escChar c = [bslash, 'r'] := by
                    simp only [escChar]
                    rw [if_neg h1, if_neg h2, if_neg h3, if_neg h4, if_neg h5, if_neg h6,
                      if_pos h7]
                  have hcc : Char.ofNat 13 = c := by
                    rw [← h7, Char.ofNat_toNat]
                  have hlc : (escChar c).length = 2 := by rw [hesc]; rfl
                  rw [hesc]
                  simp only [List.cons_append, List.nil_append]
                  obtain ⟨f1, rfl⟩ : ∃ f1, fuel = f1 + 1 := ⟨fuel - 1, by omega⟩
                  simp only [parseStrBody, ite_true, ite_false]
                  obtain ⟨f2, rfl⟩ : ∃ f2, f1 = f2 + 1 := ⟨f1 - 1, by omega⟩
                  simp only [parseEsc, ite_true, ite_false]
                  rw [ih f2 rest (by omega)]
                  simp only [Option.map_some']
                  rw [hcc]
                  rfl
                · by_cases h8 : 32 ≤ c.toNat ∧ c.toNat ≤ 126
                  · have hesc : escChar c = [c] := by
                      simp only [escChar]
                      rw [if_neg h1, if_neg h2, if_neg h3, if_neg h4, if_neg h5, if_neg h6,
                        if_neg h7, if_pos h8]
                    have hlc : (escChar c).length = 1 := by rw [hesc]; rfl
                    rw [hesc]
                    simp only [List.cons_append, List.nil_append]
                    obtain ⟨f1, rfl⟩ : ∃ f1, fuel = f1 + 1 := ⟨fuel - 1, by omega⟩
                    simp only [parseStrBody]
                    rw [if_neg h1, if_neg h2, if_neg (by omega : ¬ c.toNat < 32),
                      ih f1 rest (by omega)]
                    rfl
                  · by_cases h9 : c.toNat < 65536
                    · have hesc : escChar c = bslash :: 'u' :: hexN 4 c.toNat := by
                        simp only [escChar]
                        rw [if_neg h1, if_neg h2, if_neg h3, if_neg h4, if_neg h5, if_neg h6,
                          if_neg h7, if_neg h8, if_pos h9]
                      have hlc : (escChar c).length = 6 := by
                        rw [hesc, hexN4_expand]
                        rfl
                      rw [hesc, hexN4_expand]
                      simp only [List.cons_append, List.nil_append]
                      obtain ⟨f1, rfl⟩ : ∃ f1, fuel = f1 + 1 := ⟨fuel - 1, by omega⟩
                      simp only [parseStrBody, ite_true, ite_false]
                      obtain ⟨f2, rfl⟩ : ∃ f2, f1 = f2 + 1 := ⟨f1 - 1, by omega⟩
                      simp only [parseEsc, ite_true, ite_false]
                      obtain ⟨f3, rfl⟩ : ∃ f3, f2 = f3 + 1 := ⟨f2 - 1, by omega⟩
                      simp only [parseUEsc]
                      rw [parseHex4_digits _ _ _ _ _ (by omega) (by omega) (by omega)
                        (by omega)]
                      have hrec : ((c.toNat / 4096 * 16 + c.toNat % 4096 / 256) * 16
                          + c.toNat % 4096 % 256 / 16) * 16 + c.toNat % 4096 % 256 % 16
                          = c.toNat := by omega
                      rw [hrec]
                      simp only [parseUEscCont]
                      have hs1 : ¬(55296 ≤ c.toNat ∧ c.toNat < 56320) := by
                        rcases hval with hx | hx <;> omega
                      have hs2 : ¬(56320 ≤ c.toNat ∧ c.toNat < 57344) := by
                        rcases hval with hx | hx <;> omega
                      rw [if_neg hs1, if_neg hs2, ih f3 rest (by omega)]
                      simp only [Option.map_some']
                      rw [Char.ofNat_toNat]
                      rfl
                    · have hn17 : 65536 ≤ c.toNat ∧ c.toNat < 1114112 := by
                        rcases hval with hx | hx <;> omega
                      have hesc : escChar c
                          = (bslash :: 'u' :: hexN 4 (55296 + (c.toNat - 65536) / 1024))
                            ++ (bslash :: 'u' :: hexN 4 (56320 + (c.toNat - 65536) % 1024)) := by
                        simp only [escChar]
                        rw [if_neg h1, if_neg h2, if_neg h3, if_neg h4, if_neg h5, if_neg h6,
                          if_neg h7, if_neg h8, if_neg h9]
                      have hmod : (c.toNat - 65536) % 1024 < 1024 :=
                        Nat.mod_lt _ (by omega)
                      have hhi : 55296 + (c.toNat - 65536) / 1024 < 56320 := by omega
                      have hlo : 56320 + (c.toNat - 65536) % 1024 < 57344 := by omega
                      have hlc : (escChar c).length = 12 := by
                        rw [hesc, hexN4_expand, hexN4_expand]
                        rfl
                      rw [hesc, hexN4_expand, hexN4_expand]
                      simp only [List.cons_append, List.nil_append, List.append_assoc]
                      obtain ⟨f1, rfl⟩ : ∃ f1, fuel = f1 + 1 := ⟨fuel - 1, by omega⟩
                      simp only [parseStrBody, ite_true, ite_false]
                      obtain ⟨f2, rfl⟩ : ∃ f2, f1 = f2 + 1 := ⟨f1 - 1, by omega⟩
                      simp only [parseEsc, ite_true, ite_false]
                      obtain ⟨f3, rfl⟩ : ∃ f3, f2 = f3 + 1 := ⟨f2 - 1, by omega⟩
                      simp only [parseUEsc]
                      rw [parseHex4_digits _ _ _ _ _ (by omega) (by omega) (by omega)
                        (by omega)]
                      have hrecHi : (((55296 + (c.toNat - 65536) / 1024) / 4096 * 16
                          + (55296 + (c.toNat - 65536) / 1024) % 4096 / 256) * 16
                          + (55296 + (c.toNat - 65536) / 1024) % 4096 % 256 / 16) * 16
                          + (55296 + (c.toNat - 65536) / 1024) % 4096 % 256 % 16
                          = 55296 + (c.toNat - 65536) / 1024 := by omega
                      rw [hrecHi]
                      simp only [parseUEscCont]
                      rw [if_pos (⟨by omega, hhi⟩ :
                        55296 ≤ 55296 + (c.toNat - 65536) / 1024
                          ∧ 55296 + (c.toNat - 65536) / 1024 < 56320)]
                      obtain ⟨f4, rfl⟩ : ∃ f4, f3 = f4 + 1 := ⟨f3 - 1, by omega⟩
                      simp only [parseLowSur, ite_true, ite_false, and_self]
                      rw [parseHex4_digits _ _ _ _ _ (by omega) (by omega) (by omega)
                        (by omega)]
                      have hrecLo : (((56320 + (c.toNat - 65536) % 1024) / 4096 * 16
                          + (56320 + (c.toNat - 65536) % 1024) % 4096 / 256) * 16
                          + (56320 + (c.toNat - 65536) % 1024) % 4096 % 256 / 16) * 16
                          + (56320 + (c.toNat - 65536) % 1024) % 4096 % 256 % 16
                          = 56320 + (c.toNat - 65536) % 1024 := by omega
                      rw [hrecLo]
                      simp only [parseLowSurCont]
                      rw [if_pos (⟨by omega, hlo⟩ :
                        56320 ≤ 56320 + (c.toNat - 65536) % 1024
                          ∧ 56320 + (c.toNat - 65536) % 1024 < 57344)]
                      rw [ih f4 rest (by omega)]
                      simp only [Option.map_some']
                      have hcomb : 65536
                          + (55296 + (c.toNat - 65536) / 1024 - 55296) * 1024
                          + (56320 + (c.toNat - 65536) % 1024 - 56320) = c.toNat := by omega
                      rw [hcomb, Char.ofNat_toNat]
                      rfl

/-! ## Round trip of the full JSON codec -/

mutual

/-- Structural size of a JSON value, bounding the parser fuel it needs. -/
def jmsize : JVal → Nat
  | .jnull => 1
  | .jbool _ => 1
  | .jint _ => 1
  | .jstr _ => 1
  | .jarr xs => 1 + jmsizeArr xs
  | .jobj kvs => 1 + jmsizeObj kvs

def jmsizeArr : JArr → Nat
  | .nil => 1
  | .cons v tl => 1 + jmsize v + jmsizeArr tl

def jmsizeObj : JObj → Nat
  | .nil => 1
  | .cons _ v tl => 1 + jmsize v + jmsizeObj tl

end

theorem jmsize_pos (v : JVal) : 1 ≤ jmsize v := by
  cases v <;> simp only [jmsize] <;> omega

theorem jmsizeArr_pos (xs : JArr) : 1 ≤ jmsizeArr xs := by
  cases xs <;> simp only [jmsizeArr] <;> omega

theorem jmsizeObj_pos (kvs : JObj) : 1 ≤ jmsizeObj kvs := by
  cases kvs <;> simp only [jmsizeObj] <;> omega

theorem delimOK_arrRest (tl : JArr) (rest : List Char) :
    delimOK (jserArrRest tl ++ (']' :: rest)) = true := by
  cases tl with
  | nil =>
    simp only [jserArrRest, List.nil_append]
    rfl
  | cons v tl2 =>
    simp only [jserArrRest, List.cons_append, List.append_assoc]
    rfl

theorem delimOK_objRest (tl : JObj) (rest : List Char) :
    delimOK (jserObjRest tl ++ (rbrace :: rest)) = true := by
  cases tl with
  | nil =>
    simp only [jserObjRest, List.nil_append]
    rfl
  | cons k v tl2 =>
    simp only [jserObjRest, List.cons_append, List.append_assoc]
    rfl

/-- Every serialized value starts with a character that closes neither an
array nor an object. -/
theorem jser_head (v : JVal) : ∃ c cs, jser v = c :: cs
    ∧ ¬ c = ']' ∧ ¬ c = rbrace := by
  cases v with
  | jnull => exact ⟨'n', _, rfl, by decide, by decide⟩
  | jbool b =>
    cases b with
    | false => exact ⟨'f', _, rfl, by decide, by decide⟩
    | true => exact ⟨'t', _, rfl, by decide, by decide⟩
  | jint n =>
    cases n with
    | ofNat m =>
      obtain ⟨c, cs, hc⟩ : ∃ c cs, natChars m = c :: cs := by
        cases h : natChars m with
        | nil => exact absurd h (natDigsAux_ne_nil (m + 1) m (by omega))
        | cons c cs => exact ⟨c, cs, rfl⟩
      have hd : 48 ≤ c.toNat ∧ c.toNat ≤ 57 := by
        refine natDigsAux_digits (m + 1) m (by omega) c ?_
        show c ∈ natChars m
        rw [hc]
        exact List.mem_cons_self c cs
      refine ⟨c, cs, ?_, ?_, ?_⟩
      · simp only [jser, intChars]
        exact hc
      · intro he
        rw [he] at hd
        revert hd
        decide
      · intro he
        rw [he] at hd
        revert hd
        decide
    | negSucc m =>
      exact ⟨'-', natChars (m + 1), by simp only [jser, intChars], by decide, by decide⟩
  | jstr s =>
    exact ⟨qchar, escBody s ++ [qchar], by simp only [jser, escString], by decide, by decide⟩
  | jarr xs =>
    cases xs with
    | nil => exact ⟨'[', _, rfl, by decide, by decide⟩
    | cons v tl => exact ⟨'[', _, rfl, by decide, by decide⟩
  | jobj kvs =>
    cases kvs with
    | nil => exact ⟨lbrace, _, rfl, by decide, by decide⟩
    | cons k v tl => exact ⟨lbrace, _, rfl, by decide, by decide⟩

mutual

/-- Parsing inverts serialization, given fuel above the structural size
and a following input that cannot extend a number token. -/
theorem jparse_jser (v : JVal) (fuel : Nat) (rest : List Char)
    (hf : jmsize v < fuel) (hd : delimOK rest = true) :
    jparse fuel (jser v ++ rest) = some (v, rest) := by
  obtain ⟨f, rfl⟩ : ∃ f, fuel = f + 1 := ⟨fuel - 1, by omega⟩
  cases v with
  | jnull =>
    simp only [jser, List.cons_append, List.nil_append, jparse, ite_true, ite_false]
    rfl
  | jbool b =>
    cases b with
    | false =>
      simp only [jser, List.cons_append, List.nil_append, jparse, ite_true, ite_false]
      rfl
    | true =>
      simp only [jser, List.cons_append, List.nil_append, jparse, ite_true, ite_false]
      rfl
  | jint n =>
    cases n with
    | ofNat m =>
      obtain ⟨c, cs, hc⟩ : ∃ c cs, natChars m = c :: cs := by
        cases h : natChars m with
        | nil => exact absurd h (natDigsAux_ne_nil (m + 1) m (by omega))
        | cons c cs => exact ⟨c, cs, rfl⟩
      have hd48 : 48 ≤ c.toNat ∧ c.toNat ≤ 57 := by
        refine natDigsAux_digits (m + 1) m (by omega) c ?_
        show c ∈ natChars m
        rw [hc]
        exact List.mem_cons_self c cs
      have hq : ¬ c = qchar := fun he => by rw [he] at hd48; revert hd48; decide
      have hlb : ¬ c = '[' := fun he => by rw [he] at hd48; revert hd48; decide
      have hbr : ¬ c = lbrace := fun he => by rw [he] at hd48; revert hd48; decide
      have hnn : ¬ c = 'n' := fun he => by rw [he] at hd48; revert hd48; decide
      have htt : ¬ c = 't' := fun he => by rw [he] at hd48; revert hd48; decide
      have hff : ¬ c = 'f' := fun he => by rw [he] at hd48; revert hd48; decide
      have hser : jser (.jint (Int.ofNat m)) = natChars m := by
        simp only [jser, intChars]
      rw [hser, hc, List.cons_append]
      simp only [jparse]
      rw [if_neg hq, if_neg hlb, if_neg hbr, if_neg hnn, if_neg htt, if_neg hff]
      rw [← List.cons_append, ← hc]
      rw [show natChars m = intChars (Int.ofNat m) from rfl]
      rw [parseIntTok_intChars (Int.ofNat m) rest hd]
      rfl
    | negSucc m =>
      have hser : jser (.jint (Int.negSucc m)) = '-' :: natChars (m + 1) := by
        simp only [jser, intChars]
      rw [hser, List.cons_append]
      simp only [jparse, ite_true, ite_false]
      rw [show ('-' :: (natChars (m + 1) ++ rest)) = intChars (Int.negSucc m) ++ rest from by
        simp [intChars]]
      rw [parseIntTok_intChars (Int.negSucc m) rest hd]
      rfl
  | jstr s =>
    have hser : jser (.jstr s) ++ rest = qchar :: (escBody s ++ (qchar :: rest)) := by
      simp [jser, escString]
    rw [hser]
    simp only [jparse, ite_true]
    rw [parseStrBody_escBody s _ rest (by
      simp only [List.length_append, List.length_cons]
      omega)]
    rfl
  | jarr xs =>
    cases xs with
    | nil =>
      simp only [jser, List.cons_append, List.nil_append, jparse, ite_true, ite_false]
      rfl
    | cons v2 tl =>
      obtain ⟨c, cs, hc, hcne, hcne2⟩ := jser_head v2
      have hser : jser (.jarr (.cons v2 tl)) ++ rest
          = '[' :: (jser v2 ++ (jserArrRest tl ++ (']' :: rest))) := by
        simp [jser, List.append_assoc]
      rw [hser]
      simp only [jparse, ite_true, ite_false]
      rw [hc, List.cons_append]
      simp only []
      rw [if_neg hcne]
      rw [← List.cons_append, ← hc]
      rw [jparseArr_jser v2 tl f rest (by simp only [jmsize] at hf; omega)]
      rfl
  | jobj kvs =>
    cases kvs with
    | nil =>
      simp only [jser, List.cons_append, List.nil_append, jparse, ite_true, ite_false]
      rfl
    | cons k v2 tl =>
      have hser : jser (.jobj (.cons k v2 tl)) ++ rest
          = lbrace :: (escString k
            ++ (':' :: (jser v2 ++ (jserObjRest tl ++ (rbrace :: rest))))) := by
        simp [jser, List.append_assoc]
      rw [hser]
      simp only [jparse, ite_true, ite_false]
      have heq : escString k ++ (':' :: (jser v2 ++ (jserObjRest tl ++ (rbrace :: rest))))
          = qchar :: (escBody k
            ++ (qchar :: (':' :: (jser v2 ++ (jserObjRest tl ++ (rbrace :: rest)))))) := by
        simp [escString, List.append_assoc]
      rw [heq]
      simp only []
      rw [← heq]
      rw [jparseObj_jser k v2 tl f rest (by simp only [jmsize] at hf; omega)]
      rfl
termination_by sizeOf v

theorem jparseArr_jser (v : JVal) (tl : JArr) (fuel : Nat) (rest : List Char)
    (hf : jmsizeArr (JArr.cons v tl) ≤ fuel) :
    jparseArrItems fuel (jser v ++ (jserArrRest tl ++ (']' :: rest)))
      = some (JArr.cons v tl, rest) := by
  have hp := jmsize_pos v
  have hpa := jmsizeArr_pos tl
  simp only [jmsizeArr] at hf
  obtain ⟨f, rfl⟩ : ∃ f, fuel = f + 1 := ⟨fuel - 1, by omega⟩
  simp only [jparseArrItems]
  rw [jparse_jser v f (jserArrRest tl ++ (']' :: rest)) (by omega)
    (delimOK_arrRest tl rest)]
  cases tl with
  | nil =>
    simp only [jserArrRest, List.nil_append]
  | cons v2 tl2 =>
    simp only [jserArrRest, List.cons_append, List.append_assoc]
    rw [jparseArr_jser v2 tl2 f rest (by omega)]
    rfl
termination_by sizeOf (JArr.cons v tl)

theorem jparseObj_jser (k : List Char) (v : JVal) (tl : JObj) (fuel : Nat) (rest : List Char)
    (hf : jmsizeObj (JObj.cons k v tl) ≤ fuel) :
    jparseObjItems fuel
        (escString k ++ (':' :: (jser v ++ (jserObjRest tl ++ (rbrace :: rest)))))
      = some (JObj.cons k v tl, rest) := by
  have hp := jmsize_pos v
  have hpo := jmsizeObj_pos tl
  simp only [jmsizeObj] at hf
  obtain ⟨f, rfl⟩ : ∃ f, fuel = f + 1 := ⟨fuel - 1, by omega⟩
  have heq : escString k ++ (':' :: (jser v ++ (jserObjRest tl ++ (rbrace :: rest))))
      = qchar :: (escBody k
        ++ (qchar :: (':' :: (jser v ++ (jserObjRest tl ++ (rbrace :: rest)))))) := by
    simp [escString, List.append_assoc]
  rw [heq]
  simp only [jparseObjItems, ite_true]
  rw [parseStrBody_escBody k _ _ (by
    simp only [List.length_append, List.length_cons]
    omega)]
  simp only [List.cons_append]
  rw [jparse_jser v f (jserObjRest tl ++ (rbrace :: rest)) (by omega)
    (delimOK_objRest tl rest)]
  cases tl with
  | nil =>
    simp only [jserObjRest, List.nil_append]
    rfl
  | cons k2 v2 tl2 =>
    simp only [jserObjRest, List.cons_append, List.append_assoc]
    rw [jparseObj_jser k2 v2 tl2 f rest (by omega)]
    rfl
termination_by sizeOf (JObj.cons k v tl)

end


/-! ## Theorems -/

/-- Claim C1.  The exact-read loop is claimed to terminate for every
transport behaviour, failing with ConnectionClosed when a read returns zero
bytes.  The code has no such check: against a transport whose reads return
zero bytes, the `while size_remaining:` loop never terminates — for every
fuel bound the loop is still running (`none`), and no error of any kind is
raised.  This contradicts the claim and documents the code bug. -/
theorem recv_exactly_zero_read_loops_forever (fuel k n : Nat) (buf : List Nat)
    (h : 0 < n) :
    recvExactlyFuel (fun _ => []) fuel k n buf = none := by
  induction fuel generalizing k buf with
  | zero => rfl
  | succ fuel ih =>
    simp only [recvExactlyFuel, List.take_nil, List.length_nil, Nat.sub_zero,
      List.append_nil]
    rw [if_neg (by omega)]
    exact ih (k + 1) buf

/-- Witness for C1: requesting 8 bytes from a peer that has hung up
(every read yields zero bytes) leaves the loop running after 1000
iterations. -/
theorem recv_exactly_zero_read_loops_forever_witness :
    0 < 8 ∧ recvExactlyFuel (fun _ => []) 1000 0 8 [] = none :=
  ⟨by decide, recv_exactly_zero_read_loops_forever 1000 0 8 [] (by decide)⟩

/-- Helper for C2: the Windows candidate loop on a list of all-failing
candidates falls through to the for-else arm, which returns (not raises)
the error value. -/
theorem winConnectLoop_all_fail (canOpen : Nat → Bool) (l : List Nat)
    (h : ∀ i ∈ l, canOpen i = false) :
    winConnectLoop canOpen l = .returnedNotRaised := by
  induction l with
  | nil => rfl
  | cons i rest ih =>
    simp only [winConnectLoop, h i (List.mem_cons_self i rest)]
    exact ih fun j hj => h j (List.mem_cons_of_mem i hj)

/-- Helper for C2: the Unix candidate loop, likewise. -/
theorem unixConnectLoop_all_fail (pathExists canConnect : Nat → Bool) (l : List Nat)
    (h : ∀ i ∈ l, pathExists i = false ∨ canConnect i = false) :
    unixConnectLoop pathExists canConnect l = .returnedNotRaised := by
  induction l with
  | nil => rfl
  | cons i rest ih =>
    have ihr := ih fun j hj => h j (List.mem_cons_of_mem i hj)
    rcases h i (List.mem_cons_self i rest) with hp | hc
    · simp only [unixConnectLoop, hp, if_pos rfl]
      exact ihr
    · simp only [unixConnectLoop]
      cases hpe : pathExists i with
      | false => simpa using ihr
      | true => simpa [hc] using ihr

/-- Claim C2.  When none of the 10 candidates can be opened, the claim says
`connect` fails by raising a ConnectionError.  The code instead executes
`return DiscordIpcError(...)`: the error value is RETURNED from `_connect`
as a normal result (which `__init__` discards before proceeding to the
handshake), and nothing is raised.  Both platform loops probe all 10
candidates and end in `returnedNotRaised`, never in `raised` — the code
bug behind the claim. -/
theorem connect_all_fail_returns_instead_of_raising
    (canOpen pathExists canConnect : Nat → Bool)
    (hw : ∀ i, i < 10 → canOpen i = false)
    (hu : ∀ i, i < 10 → pathExists i = false ∨ canConnect i = false) :
    winConnect canOpen = .returnedNotRaised ∧
    winConnect canOpen ≠ .raised ∧
    unixConnect pathExists canConnect = .returnedNotRaised ∧
    unixConnect pathExists canConnect ≠ .raised := by
  have h1 : winConnect canOpen = .returnedNotRaised :=
    winConnectLoop_all_fail canOpen (List.range 10)
      fun i hi => hw i (List.mem_range.mp hi)
  have h2 : unixConnect pathExists canConnect = .returnedNotRaised :=
    unixConnectLoop_all_fail pathExists canConnect (List.range 10)
      fun i hi => hu i (List.mem_range.mp hi)
  exact ⟨h1, by simp [h1], h2, by simp [h2]⟩

/-- Witness for C2: the environment in which every open and every connect
attempt fails. -/
theorem connect_all_fail_returns_instead_of_raising_witness :
    winConnect (fun _ => false) = .returnedNotRaised ∧
    winConnect (fun _ => false) ≠ .raised ∧
    unixConnect (fun _ => false) (fun _ => false) = .returnedNotRaised ∧
    unixConnect (fun _ => false) (fun _ => false) ≠ .raised :=
  connect_all_fail_returns_instead_of_raising (fun _ => false) (fun _ => false)
    (fun _ => false) (fun _ _ => rfl) (fun _ _ => Or.inl rfl)

/-- Counterexample to claim C3.  The claim says `close()` swallows any
error from the best-effort Close-frame send.  It does not: `close` is a
`try ... finally ...` with no `except` clause, so when the send raises
(here: a broken pipe), the exception propagates to the caller of `close`
after the finaliser runs. -/
theorem close_send_error_observed_by_caller :
    (closeRun { sendErr := some .brokenPipe, closeErr := none }).exc
      = some .brokenPipe ∧
    (closeRun { sendErr := some .brokenPipe, closeErr := none }).exc ≠ none := by
  exact ⟨rfl, by decide⟩

/-- Claim C3, amended.  An error from the best-effort Close-frame send is
not swallowed: provided the transport release itself does not raise,
`close()` re-raises exactly the send error to its caller — but only after
the transport `_close` has run. -/
theorem close_send_error_propagates_after_release (env : CloseEnv)
    (h : env.closeErr = none) :
    (closeRun env).exc = env.sendErr ∧ (closeRun env).closeCalls = 1 := by
  refine ⟨?_, rfl⟩
  show (env.closeErr.orElse fun _ => env.sendErr) = env.sendErr
  rw [h]
  rfl

/-- Witness for the amended C3, at a concrete broken-transport
environment. -/
theorem close_send_error_propagates_after_release_witness :
    (closeRun { sendErr := some .osError, closeErr := none }).exc
        = some PyErr.osError ∧
    (closeRun { sendErr := some .osError, closeErr := none }).closeCalls = 1 :=
  close_send_error_propagates_after_release
    { sendErr := some .osError, closeErr := none } rfl

/-- Claim C4.  Whatever the outcome of the best-effort Close-frame send
(success, or an exception of either kind), the `finally` block runs the
transport `_close` exactly once on every exit path of `close()`. -/
theorem close_always_releases_transport_once (env : CloseEnv) :
    (closeRun env).closeCalls = 1 :=
  rfl

/-- Witness for C4 (the theorem quantifies over the environment, which is
a data argument, but we also exhibit the send-raises path concretely). -/
theorem close_always_releases_transport_once_witness :
    (closeRun { sendErr := some .brokenPipe, closeErr := none }).closeCalls = 1 :=
  close_always_releases_transport_once { sendErr := some .brokenPipe, closeErr := none }

/-- Helper for C5: characterisation of the acceptance condition evaluating
to true, in terms of the received opcode and the payload fields. -/
theorem hsCond_ok_true_iff (retOp : Nat) (retData : JVal) :
    hsCond retOp retData = .ok true ↔
      retOp = OP_FRAME ∧ ∃ kvs, retData = .jobj kvs ∧
        jget keyCmd kvs = some valDISPATCH ∧
        jget keyEvt kvs = some valREADY := by
  unfold hsCond
  by_cases hop : retOp = OP_FRAME
  · rw [if_pos hop]
    cases retData with
    | jobj kvs =>
      simp only [hsCondData]
      unfold hsCondObj
      cases hc : jget keyCmd kvs with
      | none => simp [hsCondCmd, hop, hc]
      | some c =>
        simp only [hsCondCmd]
        by_cases hcd : c = valDISPATCH
        · subst hcd
          rw [if_pos rfl]
          cases he : jget keyEvt kvs with
          | none => simp [hsCondEvt, hop, hc, he]
          | some e =>
            simp only [hsCondEvt]
            constructor
            · intro hok
              have hb : e = valREADY := of_decide_eq_true (Except.ok.inj hok)
              exact ⟨hop, kvs, rfl, hc, by rw [he, hb]⟩
            · rintro ⟨-, kvs2, hk, hc2, he2⟩
              injection hk with hk2
              subst hk2
              rw [he] at he2
              have hev := Option.some.inj he2
              rw [hev]
              simp
        · rw [if_neg hcd]
          constructor
          · intro hok
            exact absurd (Except.ok.inj hok) (by simp)
          · rintro ⟨-, kvs2, hk, hc2, he2⟩
            injection hk with hk2
            subst hk2
            rw [hc2] at hc
            exact absurd (Option.some.inj hc).symm hcd
    | jnull => simp [hsCondData, hop]
    | jbool b => simp [hsCondData, hop]
    | jint n => simp [hsCondData, hop]
    | jstr s => simp [hsCondData, hop]
    | jarr xs => simp [hsCondData, hop]
  · rw [if_neg hop]
    simp [hop]

/-- Counterexample to claim C5.  The claim says every non-accepted
handshake response fails with a HandshakeError carrying the payload.  A
Frame-opcode response whose JSON object carries `cmd = DISPATCH` but no
`evt` key instead escapes with a KeyError raised by the acceptance test
itself: the outcome is neither acceptance nor the payload-carrying
protocol error. -/
theorem handshake_missing_evt_not_handshake_error :
    (doHandshake { sendErr := none, closeErr := none } OP_FRAME
        (.jobj (.cons keyCmd valDISPATCH .nil))).outcome = .keyErr keyEvt ∧
    (doHandshake { sendErr := none, closeErr := none } OP_FRAME
        (.jobj (.cons keyCmd valDISPATCH .nil))).outcome ≠ .accepted ∧
    (doHandshake { sendErr := none, closeErr := none } OP_FRAME
        (.jobj (.cons keyCmd valDISPATCH .nil))).outcome
      ≠ .runtimeErr (.jobj (.cons keyCmd valDISPATCH .nil)) := by
  exact ⟨rfl, by decide, by decide⟩

/-- Claim C5, amended.  Restricted to responses on which the acceptance
condition evaluates without a KeyError (and with transport primitives that
do not themselves raise during the nested `close()`), the handshake
accepts exactly when the opcode is Frame and the payload object has
`cmd = DISPATCH` and `evt = READY`; every other such response is rejected
with the payload-carrying error, and the transport is closed beforehand
exactly when the received opcode is Close (in particular a Frame response
with a different `evt` leaves the transport open). -/
theorem handshake_accept_iff_ready (env : CloseEnv) (retOp : Nat) (retData : JVal)
    (b : Bool) (hcond : hsCond retOp retData = .ok b)
    (hsend : env.sendErr = none) (hclose : env.closeErr = none) :
    ((doHandshake env retOp retData).outcome = .accepted ↔
      (retOp = OP_FRAME ∧ ∃ kvs, retData = .jobj kvs ∧
        jget keyCmd kvs = some valDISPATCH ∧
        jget keyEvt kvs = some valREADY)) ∧
    ((doHandshake env retOp retData).outcome ≠ .accepted →
      (doHandshake env retOp retData).outcome = .runtimeErr retData ∧
      (doHandshake env retOp retData).transportClosed = decide (retOp = OP_CLOSE)) := by
  have hrun : closeRun env = { sendCalls := 1, closeCalls := 1, exc := none } := by
    show CloseState.mk 1 1 (env.closeErr.orElse fun _ => env.sendErr) = _
    rw [hclose, hsend]
    rfl
  cases b with
  | true =>
    have hacc : (doHandshake env retOp retData).outcome = .accepted := by
      unfold doHandshake
      rw [hcond]
    rw [hacc]
    constructor
    · simp only [true_iff]
      exact (hsCond_ok_true_iff retOp retData).mp hcond
    · intro hne
      exact absurd rfl hne
  | false =>
    have hnacc : ¬(retOp = OP_FRAME ∧ ∃ kvs, retData = .jobj kvs ∧
        jget keyCmd kvs = some valDISPATCH ∧
        jget keyEvt kvs = some valREADY) := by
      intro hx
      have hx2 := (hsCond_ok_true_iff retOp retData).mpr hx
      rw [hcond] at hx2
      have hb := Except.ok.inj hx2
      exact Bool.noConfusion hb
    have hdh : doHandshake env retOp retData =
        (if retOp = OP_CLOSE then
          { outcome := .runtimeErr retData, transportClosed := true }
         else { outcome := .runtimeErr retData, transportClosed := false }) := by
      simp only [doHandshake, hcond, hrun]
      rfl
    have hout : (doHandshake env retOp retData).outcome = .runtimeErr retData := by
      rw [hdh]
      by_cases hcl : retOp = OP_CLOSE
      · rw [if_pos hcl]
      · rw [if_neg hcl]
    have hclosed : (doHandshake env retOp retData).transportClosed
        = decide (retOp = OP_CLOSE) := by
      rw [hdh]
      by_cases hcl : retOp = OP_CLOSE
      · rw [if_pos hcl]
        simp [hcl]
      · rw [if_neg hcl]
        simp [hcl]
    refine ⟨?_, fun _ => ⟨hout, hclosed⟩⟩
    rw [hout]
    constructor
    · intro h
      exact HsOutcome.noConfusion h
    · intro hx
      exact absurd hx hnacc

/-- Witness for the amended C5: a Close-opcode response is rejected with
the payload-carrying error and the transport is closed first. -/
theorem handshake_accept_iff_ready_witness :
    hsCond OP_CLOSE JVal.jnull = .ok false ∧
    (doHandshake { sendErr := none, closeErr := none } OP_CLOSE JVal.jnull).outcome
      = .runtimeErr JVal.jnull ∧
    (doHandshake { sendErr := none, closeErr := none } OP_CLOSE JVal.jnull).transportClosed
      = true := by
  have h := handshake_accept_iff_ready { sendErr := none, closeErr := none }
    OP_CLOSE JVal.jnull false rfl rfl rfl
  have h2 := h.2 (by decide)
  refine ⟨rfl, h2.1, ?_⟩
  rw [h2.2]
  rfl

/-- Claim C10.  A Frame-opcode handshake response whose JSON object lacks
the key `cmd` — or has `cmd = DISPATCH` but lacks `evt` — makes the
acceptance test itself raise a KeyError for that key: no payload-carrying
protocol error is constructed and the transport is not closed. -/
theorem handshake_missing_key_raises_keyerror (env : CloseEnv) (kvs kvs2 : JObj)
    (hcmd : jget keyCmd kvs = none)
    (hc2 : jget keyCmd kvs2 = some valDISPATCH)
    (he2 : jget keyEvt kvs2 = none) :
    doHandshake env OP_FRAME (.jobj kvs)
      = { outcome := .keyErr keyCmd, transportClosed := false } ∧
    doHandshake env OP_FRAME (.jobj kvs2)
      = { outcome := .keyErr keyEvt, transportClosed := false } := by
  constructor
  · unfold doHandshake hsCond
    rw [if_pos rfl]
    simp only [hsCondData]
    unfold hsCondObj
    rw [hcmd]
    rfl
  · unfold doHandshake hsCond
    rw [if_pos rfl]
    simp only [hsCondData]
    unfold hsCondObj
    rw [hc2]
    simp only [hsCondCmd, if_true]
    rw [he2]
    rfl

/-- Witness for C10, at the empty payload object and at the object having
only the `cmd` entry. -/
theorem handshake_missing_key_raises_keyerror_witness :
    doHandshake { sendErr := none, closeErr := none } OP_FRAME (.jobj .nil)
      = { outcome := .keyErr keyCmd, transportClosed := false } ∧
    doHandshake { sendErr := none, closeErr := none } OP_FRAME
        (.jobj (.cons keyCmd valDISPATCH .nil))
      = { outcome := .keyErr keyEvt, transportClosed := false } :=
  handshake_missing_key_raises_keyerror { sendErr := none, closeErr := none }
    .nil (.cons keyCmd valDISPATCH .nil) rfl (by decide) (by decide)


/-! ## ASCII output of the serializer, and the UTF-8 round trip -/

theorem hexN_ascii (w : Nat) : ∀ n, n < 16 ^ w → ∀ c ∈ hexN w n, c.toNat < 128 := by
  induction w with
  | zero =>
    intro n hn c hc
    simp only [hexN, List.not_mem_nil] at hc
  | succ w ih =>
    intro n hn c hc
    have hpow : 0 < 16 ^ w := Nat.pow_pos (by norm_num)
    simp only [hexN, List.mem_cons] at hc
    rcases hc with rfl | hc
    · have hd : n / 16 ^ w < 16 := by
        rw [Nat.div_lt_iff_lt_mul hpow]
        calc n < 16 ^ (w + 1) := hn
          _ = 16 ^ w * 16 := by rw [pow_succ]
          _ = 16 * 16 ^ w := by rw [Nat.mul_comm]
      rw [hexDigitChar_toNat _ hd]
      split <;> omega
    · exact ih (n % 16 ^ w) (Nat.mod_lt _ hpow) c hc

theorem escChar_ascii (c : Char) : ∀ x ∈ escChar c, x.toNat < 128 := by
  intro x hx
  have hval := char_valid_cases c
  simp only [escChar] at hx
  split at hx
  · simp only [List.mem_cons, List.not_mem_nil, or_false] at hx
    rcases hx with rfl | rfl <;> decide
  · split at hx
    · simp only [List.mem_cons, List.not_mem_nil, or_false] at hx
      rcases hx with rfl | rfl <;> decide
    · split at hx
      · simp only [List.mem_cons, List.not_mem_nil, or_false] at hx
        rcases hx with rfl | rfl <;> decide
      · split at hx
        · simp only [List.mem_cons, List.not_mem_nil, or_false] at hx
          rcases hx with rfl | rfl <;> decide
        · split at hx
          · simp only [List.mem_cons, List.not_mem_nil, or_false] at hx
            rcases hx with rfl | rfl <;> decide
          · split at hx
            · simp only [List.mem_cons, List.not_mem_nil, or_false] at hx
              rcases hx with rfl | rfl <;> decide
            · split at hx
              · simp only [List.mem_cons, List.not_mem_nil, or_false] at hx
                rcases hx with rfl | rfl <;> decide
              · split at hx
                · next hpr =>
                  simp only [List.mem_cons, List.not_mem_nil, or_false] at hx
                  subst hx
                  omega
                · split at hx
                  · next hbmp =>
                    simp only [List.mem_cons] at hx
                    rcases hx with rfl | rfl | hx
                    · decide
                    · decide
                    · exact hexN_ascii 4 _ (by omega) x hx
                  · next hbmp =>
                    rcases List.mem_append.1 hx with h1 | h1 <;>
                      simp only [List.mem_cons] at h1 <;>
                      rcases h1 with rfl | rfl | h1
                    · decide
                    · decide
                    · exact hexN_ascii 4 _ (by omega) x h1
                    · decide
                    · decide
                    · exact hexN_ascii 4 _ (by omega) x h1


theorem natDigsAux_ascii (fuel : Nat) : ∀ n c, c ∈ natDigsAux fuel n → c.toNat < 128 := by
  induction fuel with
  | zero =>
    intro n c hc
    simp only [natDigsAux, List.not_mem_nil] at hc
  | succ fuel ih =>
    intro n c hc
    simp only [natDigsAux] at hc
    by_cases h : n < 10
    · rw [if_pos h] at hc
      simp only [List.mem_cons, List.not_mem_nil, or_false] at hc
      subst hc
      unfold digitChar
      rw [char_toNat_ofNat_lt _ (by omega)]
      omega
    · rw [if_neg h] at hc
      rcases List.mem_append.1 hc with h1 | h1
      · exact ih _ _ h1
      · simp only [List.mem_cons, List.not_mem_nil, or_false] at h1
        subst h1
        unfold digitChar
        rw [char_toNat_ofNat_lt _ (by omega)]
        omega

theorem intChars_ascii (n : Int) : ∀ c ∈ intChars n, c.toNat < 128 := by
  intro c hc
  cases n with
  | ofNat m =>
    simp only [intChars, natChars] at hc
    exact natDigsAux_ascii _ _ _ hc
  | negSucc m =>
    simp only [intChars, natChars, List.mem_cons] at hc
    rcases hc with rfl | hc
    · decide
    · exact natDigsAux_ascii _ _ _ hc

theorem escBody_ascii (s : List Char) : ∀ c ∈ escBody s, c.toNat < 128 := by
  induction s with
  | nil =>
    intro c hc
    simp only [escBody, List.not_mem_nil] at hc
  | cons a s ih =>
    intro c hc
    simp only [escBody] at hc
    rcases List.mem_append.1 hc with h1 | h1
    · exact escChar_ascii a c h1
    · exact ih c h1

theorem escString_ascii (s : List Char) : ∀ c ∈ escString s, c.toNat < 128 := by
  intro c hc
  simp only [escString, List.mem_cons] at hc
  rcases hc with rfl | hc
  · decide
  · rcases List.mem_append.1 hc with h1 | h1
    · exact escBody_ascii s c h1
    · simp only [List.mem_cons, List.not_mem_nil, or_false] at h1
      subst h1
      decide

mutual

theorem jser_ascii (v : JVal) : ∀ c ∈ jser v, c.toNat < 128 := by
  cases v with
  | jnull =>
    intro c hc
    simp only [jser, List.mem_cons, List.not_mem_nil, or_false] at hc
    rcases hc with rfl | rfl | rfl | rfl <;> decide
  | jbool b =>
    cases b with
    | true =>
      intro c hc
      simp only [jser, List.mem_cons, List.not_mem_nil, or_false] at hc
      rcases hc with rfl | rfl | rfl | rfl <;> decide
    | false =>
      intro c hc
      simp only [jser, List.mem_cons, List.not_mem_nil, or_false] at hc
      rcases hc with rfl | rfl | rfl | rfl | rfl <;> decide
  | jint n =>
    intro c hc
    simp only [jser] at hc
    exact intChars_ascii n c hc
  | jstr s =>
    intro c hc
    simp only [jser] at hc
    exact escString_ascii s c hc
  | jarr xs =>
    cases xs with
    | nil =>
      intro c hc
      simp only [jser, List.mem_cons, List.not_mem_nil, or_false] at hc
      rcases hc with rfl | rfl <;> decide
    | cons v tl =>
      intro c hc
      simp only [jser, List.cons_append, List.mem_cons] at hc
      rcases hc with rfl | hc
      · decide
      · rcases List.mem_append.1 hc with h1 | h1
        · rcases List.mem_append.1 h1 with h2 | h2
          · exact jser_ascii v c h2
          · exact jserArrRest_ascii tl c h2
        · simp only [List.mem_cons, List.not_mem_nil, or_false] at h1
          subst h1
          decide
  | jobj kvs =>
    cases kvs with
    | nil =>
      intro c hc
      simp only [jser, List.mem_cons, List.not_mem_nil, or_false] at hc
      rcases hc with rfl | rfl <;> decide
    | cons k v tl =>
      intro c hc
      simp only [jser, List.cons_append, List.mem_cons] at hc
      rcases hc with rfl | hc
      · decide
      · rcases List.mem_append.1 hc with h1 | h1
        · rcases List.mem_append.1 h1 with h2 | h2
          · rcases List.mem_append.1 h2 with h3 | h3
            · exact escString_ascii k c h3
            · simp only [List.mem_cons] at h3
              rcases h3 with rfl | h4
              · decide
              · exact jser_ascii v c h4
          · exact jserObjRest_ascii tl c h2
        · simp only [List.mem_cons, List.not_mem_nil, or_false] at h1
          subst h1
          decide
termination_by sizeOf v

theorem jserArrRest_ascii (tl : JArr) : ∀ c ∈ jserArrRest tl, c.toNat < 128 := by
  cases tl with
  | nil =>
    intro c hc
    simp only [jserArrRest, List.not_mem_nil] at hc
  | cons v tl2 =>
    intro c hc
    simp only [jserArrRest, List.cons_append, List.mem_cons] at hc
    rcases hc with rfl | hc
    · decide
    · rcases List.mem_append.1 hc with h1 | h1
      · exact jser_ascii v c h1
      · exact jserArrRest_ascii tl2 c h1
termination_by sizeOf tl

theorem jserObjRest_ascii (kvs : JObj) : ∀ c ∈ jserObjRest kvs, c.toNat < 128 := by
  cases kvs with
  | nil =>
    intro c hc
    simp only [jserObjRest, List.not_mem_nil] at hc
  | cons k v tl2 =>
    intro c hc
    simp only [jserObjRest, List.cons_append, List.mem_cons] at hc
    rcases hc with rfl | hc
    · decide
    · rcases List.mem_append.1 hc with h1 | h1
      · rcases List.mem_append.1 h1 with h2 | h2
        · exact escString_ascii k c h2
        · simp only [List.mem_cons] at h2
          rcases h2 with rfl | h3
          · decide
          · exact jser_ascii v c h3
      · exact jserObjRest_ascii tl2 c h1
termination_by sizeOf kvs

end


theorem utf8Encode_ascii (s : List Char) (h : ∀ c ∈ s, c.toNat < 128) :
    utf8Encode s = s.map Char.toNat := by
  induction s with
  | nil => rfl
  | cons a s ih =>
    simp only [utf8Encode, List.map_cons]
    rw [ih (fun c hc => h c (List.mem_cons_of_mem a hc))]
    have ha : a.toNat < 128 := h a (List.mem_cons_self a s)
    simp only [utf8EncChar]
    rw [if_pos ha]
    rfl

theorem utf8Decode_map_ascii (s : List Char) (h : ∀ c ∈ s, c.toNat < 128) :
    ∀ fuel, s.length < fuel → utf8Decode fuel (s.map Char.toNat) = some s := by
  induction s with
  | nil =>
    intro fuel hf
    cases fuel with
    | zero => omega
    | succ f => rfl
  | cons a s ih =>
    intro fuel hf
    cases fuel with
    | zero => omega
    | succ f =>
      simp only [List.map_cons, utf8Decode]
      have ha : a.toNat < 128 := h a (List.mem_cons_self a s)
      rw [if_pos ha]
      rw [ih (fun c hc => h c (List.mem_cons_of_mem a hc)) f
        (by simp only [List.length_cons] at hf; omega)]
      simp only [Option.map_some', Char.ofNat_toNat]

/-- UTF-8 decoding inverts UTF-8 encoding on any serializer output (whose
characters are all ASCII thanks to `ensure_ascii=True`). -/
theorem utf8_jser_roundtrip (v : JVal) :
    utf8Decode ((utf8Encode (jser v)).length + 1) (utf8Encode (jser v)) = some (jser v) := by
  rw [utf8Encode_ascii _ (jser_ascii v)]
  exact utf8Decode_map_ascii _ (jser_ascii v) _
    (by simp only [List.length_map]; omega)


theorem intChars_len_pos (n : Int) : 1 ≤ (intChars n).length := by
  cases n with
  | ofNat m =>
    simp only [intChars, natChars]
    exact List.length_pos.2 (natDigsAux_ne_nil (m + 1) m (by omega))
  | negSucc m =>
    simp only [intChars, List.length_cons]
    omega

mutual

/-- The serializer output is long enough to cover the parser fuel the
value needs. -/
theorem jmsize_le (v : JVal) : jmsize v + 1 ≤ 2 * (jser v).length := by
  cases v with
  | jnull => decide
  | jbool b => cases b <;> decide
  | jint n =>
    have h := intChars_len_pos n
    simp only [jmsize, jser]
    omega
  | jstr s =>
    simp only [jmsize, jser, escString, List.length_cons, List.length_append,
      List.length_singleton]
    omega
  | jarr xs =>
    cases xs with
    | nil => decide
    | cons v tl =>
      have h1 := jmsize_le v
      have h2 := jmsizeArr_le tl
      simp only [jmsize, jmsizeArr, jser, List.cons_append, List.length_cons,
        List.length_append, List.length_singleton]
      omega
  | jobj kvs =>
    cases kvs with
    | nil => decide
    | cons k v tl =>
      have h1 := jmsize_le v
      have h2 := jmsizeObj_le tl
      simp only [jmsize, jmsizeObj, jser, escString, List.cons_append, List.length_cons,
        List.length_append, List.length_singleton]
      omega
termination_by sizeOf v

theorem jmsizeArr_le (tl : JArr) : jmsizeArr tl ≤ 2 * (jserArrRest tl).length + 2 := by
  cases tl with
  | nil => decide
  | cons v tl2 =>
    have h1 := jmsize_le v
    have h2 := jmsizeArr_le tl2
    simp only [jmsizeArr, jserArrRest, List.cons_append, List.length_cons,
      List.length_append]
    omega
termination_by sizeOf tl

theorem jmsizeObj_le (kvs : JObj) : jmsizeObj kvs ≤ 2 * (jserObjRest kvs).length + 2 := by
  cases kvs with
  | nil => decide
  | cons k v tl2 =>
    have h1 := jmsize_le v
    have h2 := jmsizeObj_le tl2
    simp only [jmsizeObj, jserObjRest, escString, List.cons_append, List.length_cons,
      List.length_append]
    omega
termination_by sizeOf kvs

end

/-- `json.loads` inverts `json.dumps` on every value. -/
theorem jloads_jser (v : JVal) : jloads (jser v) = some v := by
  have h := jparse_jser v (2 * (jser v).length + 2) []
    (by have := jmsize_le v; omega) rfl
  rw [List.append_nil] at h
  unfold jloads
  rw [h]


theorem le4val_packLE4 (n : Nat) (h : n < 4294967296) :
    le4val (n % 256) (n / 256 % 256) (n / 65536 % 256) (n / 16777216 % 256) = n := by
  unfold le4val
  omega

theorem unpackII_packLE4 (a b : Nat) (ha : a < 4294967296) (hb : b < 4294967296) :
    unpackII (packLE4 a ++ packLE4 b) = some (a, b) := by
  simp only [packLE4, List.cons_append, List.nil_append, unpackII]
  rw [le4val_packLE4 a ha, le4val_packLE4 b hb]

/-- When the transport holds at least `n` buffered bytes, `_recv_exactly n`
reads exactly the first `n` of them. -/
theorem recvExactlyBuf_take (fuel n : Nat) (buf : List Nat) (hf : 2 ≤ fuel)
    (hn : n ≤ buf.length) :
    recvExactlyBuf fuel n buf [] = some (buf.take n, buf.drop n) := by
  cases fuel with
  | zero => omega
  | succ f =>
    simp only [recvExactlyBuf]
    by_cases h0 : n = 0
    · rw [if_pos h0]
      subst h0
      rw [List.take_zero, List.drop_zero]
    · rw [if_neg h0]
      have hlen : (buf.take n).length = n := by
        rw [List.length_take]
        omega
      rw [hlen, Nat.sub_self]
      cases f with
      | zero => omega
      | succ f2 =>
        simp only [recvExactlyBuf, eq_self_iff_true, if_true, List.nil_append]

theorem recvExactlyBuf_append (fuel : Nat) (A B : List Nat) (hf : 2 ≤ fuel) :
    recvExactlyBuf fuel A.length (A ++ B) [] = some (A, B) := by
  rw [recvExactlyBuf_take fuel A.length (A ++ B) hf
    (by simp only [List.length_append]; omega)]
  rw [List.take_left, List.drop_left]

/-- `recv` against a buffer holding exactly one well-formed frame carrying
opcode `op` and payload `v` returns `(op, v)`, for any 32-bit `op`. -/
theorem recvBytes_wire (op : Nat) (v : JVal) (hop : op < 4294967296)
    (hlen : (utf8Encode (jser v)).length < 4294967296) :
    recvBytes ((packLE4 op ++ packLE4 (utf8Encode (jser v)).length) ++ utf8Encode (jser v))
      = some (op, v) := by
  have hhdr8 : (packLE4 op ++ packLE4 (utf8Encode (jser v)).length).length = 8 := by
    simp only [packLE4, List.length_append, List.length_cons, List.length_nil]
  have h1 : recvExactlyBuf
      (((packLE4 op ++ packLE4 (utf8Encode (jser v)).length) ++ utf8Encode (jser v)).length + 2)
      8 ((packLE4 op ++ packLE4 (utf8Encode (jser v)).length) ++ utf8Encode (jser v)) []
      = some (packLE4 op ++ packLE4 (utf8Encode (jser v)).length, utf8Encode (jser v)) := by
    rw [← hhdr8]
    exact recvExactlyBuf_append _ _ _ (by omega)
  have h2 := unpackII_packLE4 op (utf8Encode (jser v)).length hop hlen
  have h3 : recvExactlyBuf ((utf8Encode (jser v)).length + 2) (utf8Encode (jser v)).length
      (utf8Encode (jser v)) [] = some (utf8Encode (jser v), []) := by
    rw [recvExactlyBuf_take _ _ _ (by omega) (by omega)]
    rw [List.take_length, List.drop_length]
  have h4 := utf8_jser_roundtrip v
  have h5 := jloads_jser v
  unfold recvBytes
  rw [h1]
  simp only []
  rw [h2]
  simp only []
  rw [h3]
  simp only []
  rw [h4]
  simp only []
  rw [h5]
  rfl


/-! ## The uuid4 nonce -/

theorem hexN_length (w : Nat) : ∀ n, (hexN w n).length = w := by
  induction w with
  | zero => intro n; rfl
  | succ w ih =>
    intro n
    simp only [hexN, List.length_cons, ih]

theorem hexDigitChar_inj (d1 d2 : Nat) (h1 : d1 < 16) (h2 : d2 < 16)
    (he : hexDigitChar d1 = hexDigitChar d2) : d1 = d2 := by
  have ht : (hexDigitChar d1).toNat = (hexDigitChar d2).toNat := by rw [he]
  rw [hexDigitChar_toNat d1 h1, hexDigitChar_toNat d2 h2] at ht
  split at ht <;> split at ht <;> omega

theorem hexN_inj (w : Nat) : ∀ n1 n2, n1 < 16 ^ w → n2 < 16 ^ w →
    hexN w n1 = hexN w n2 → n1 = n2 := by
  induction w with
  | zero =>
    intro n1 n2 h1 h2 _
    simp only [pow_zero] at h1 h2
    omega
  | succ w ih =>
    intro n1 n2 h1 h2 he
    have hpow : 0 < 16 ^ w := Nat.pow_pos (by norm_num)
    have hmul : 16 ^ (w + 1) = 16 * 16 ^ w := by
      rw [pow_succ, Nat.mul_comm]
    simp only [hexN, List.cons.injEq] at he
    have hd1 : n1 / 16 ^ w < 16 := by
      rw [Nat.div_lt_iff_lt_mul hpow]
      omega
    have hd2 : n2 / 16 ^ w < 16 := by
      rw [Nat.div_lt_iff_lt_mul hpow]
      omega
    have hdd := hexDigitChar_inj _ _ hd1 hd2 he.1
    have hmm := ih _ _ (Nat.mod_lt _ hpow) (Nat.mod_lt _ hpow) he.2
    have e1 := Nat.div_add_mod n1 (16 ^ w)
    have e2 := Nat.div_add_mod n2 (16 ^ w)
    rw [hdd, hmm] at e1
    omega

theorem uuid4Mask_lt (r : Nat) :
    uuid4Mask r < 340282366920938463463374607431768211456 := by
  unfold uuid4Mask
  omega

theorem uuidStr_length (u : Nat) : (uuidStr u).length = 36 := by
  simp only [uuidStr, List.length_append, List.length_cons, hexN_length]

theorem uuidStr_ne_nil (u : Nat) : uuidStr u ≠ [] := by
  intro h
  have := uuidStr_length u
  rw [h] at this
  simp only [List.length_nil] at this
  omega

theorem uuidStr_inj (u1 u2 : Nat)
    (h1 : u1 < 340282366920938463463374607431768211456)
    (h2 : u2 < 340282366920938463463374607431768211456)
    (he : uuidStr u1 = uuidStr u2) : u1 = u2 := by
  unfold uuidStr at he
  obtain ⟨he, e5⟩ := List.append_inj' he (by simp only [List.length_cons, hexN_length])
  obtain ⟨he, e4⟩ := List.append_inj' he (by simp only [List.length_cons, hexN_length])
  obtain ⟨he, e3⟩ := List.append_inj' he (by simp only [List.length_cons, hexN_length])
  obtain ⟨e1, e2⟩ := List.append_inj' he (by simp only [List.length_cons, hexN_length])
  simp only [List.cons.injEq, true_and] at e2 e3 e4 e5
  have f1 := hexN_inj 8 _ _ (by omega) (by omega) e1
  have f2 := hexN_inj 4 _ _ (by omega) (by omega) e2
  have f3 := hexN_inj 4 _ _ (by omega) (by omega) e3
  have f4 := hexN_inj 4 _ _ (by omega) (by omega) e4
  have f5 := hexN_inj 12 _ _ (by omega) (by omega) e5
  omega


/-- Claim C6.  For every recognised opcode (Handshake, Frame, Close, Ping,
Pong) and every JSON payload whose serialized byte length fits the 32-bit
length field, feeding the frame `send` produces through the header and
payload decoding `recv` performs returns exactly the opcode and payload
that were encoded (round-trip identity). -/
theorem send_recv_roundtrip (op : Nat) (p : JVal)
    (hop : op = OP_HANDSHAKE ∨ op = OP_FRAME ∨ op = OP_CLOSE ∨ op = OP_PING ∨ op = OP_PONG)
    (hlen : (utf8Encode (jser p)).length < 4294967296) :
    ∃ frame, sendBytes op p = some frame ∧ recvBytes frame = some (op, p) := by
  have hop32 : op < 4294967296 := by
    rcases hop with rfl | rfl | rfl | rfl | rfl <;> decide
  refine ⟨(packLE4 op ++ packLE4 (utf8Encode (jser p)).length) ++ utf8Encode (jser p),
    ?_, recvBytes_wire op p hop32 hlen⟩
  simp only [sendBytes, packII]
  rw [if_pos ⟨hop32, hlen⟩]
  simp only [Option.map_some']

/-- Witness for C6 at opcode Frame and the empty-object payload. -/
theorem send_recv_roundtrip_witness :
    ∃ frame, sendBytes OP_FRAME (.jobj .nil) = some frame
      ∧ recvBytes frame = some (OP_FRAME, .jobj .nil) :=
  send_recv_roundtrip OP_FRAME (.jobj .nil) (Or.inr (Or.inl rfl)) (by decide)

/-- Claim C7.  The encoded frame is bit-exact per the wire format: an
8-byte header of the opcode then the payload length, each as a 4-byte
little-endian uint32, followed by exactly the UTF-8 bytes of the
JSON-serialized payload, with the encoded length equal to the payload byte
length; the opcode constants are Handshake=0, Frame=1, Close=2, Ping=3,
Pong=4. -/
theorem send_wire_format (op : Nat) (p : JVal) (hop : op < 4294967296)
    (hlen : (utf8Encode (jser p)).length < 4294967296) :
    ∃ frame, sendBytes op p = some frame
      ∧ frame = (packLE4 op ++ packLE4 (utf8Encode (jser p)).length) ++ utf8Encode (jser p)
      ∧ frame.length = 8 + (utf8Encode (jser p)).length
      ∧ frame.take 8 = packLE4 op ++ packLE4 (utf8Encode (jser p)).length
      ∧ frame.drop 8 = utf8Encode (jser p)
      ∧ unpackII (frame.take 8) = some (op, (frame.drop 8).length)
      ∧ OP_HANDSHAKE = 0 ∧ OP_FRAME = 1 ∧ OP_CLOSE = 2 ∧ OP_PING = 3 ∧ OP_PONG = 4 := by
  have hhdr8 : (packLE4 op ++ packLE4 (utf8Encode (jser p)).length).length = 8 := by
    simp only [packLE4, List.length_append, List.length_cons, List.length_nil]
  refine ⟨(packLE4 op ++ packLE4 (utf8Encode (jser p)).length) ++ utf8Encode (jser p),
    ?_, rfl, ?_, ?_, ?_, ?_, rfl, rfl, rfl, rfl, rfl⟩
  · simp only [sendBytes, packII]
    rw [if_pos ⟨hop, hlen⟩]
    simp only [Option.map_some']
  · rw [List.length_append, hhdr8]
  · rw [← hhdr8, List.take_left]
  · rw [← hhdr8, List.drop_left]
  · rw [← hhdr8, List.take_left, List.drop_left]
    exact unpackII_packLE4 op _ hop hlen

/-- Witness for C7 at opcode Frame and the empty-object payload. -/
theorem send_wire_format_witness :
    ∃ frame, sendBytes OP_FRAME (.jobj .nil) = some frame
      ∧ frame = (packLE4 OP_FRAME ++ packLE4 (utf8Encode (jser (.jobj .nil))).length)
          ++ utf8Encode (jser (.jobj .nil))
      ∧ frame.length = 8 + (utf8Encode (jser (.jobj .nil))).length
      ∧ frame.take 8 = packLE4 OP_FRAME ++ packLE4 (utf8Encode (jser (.jobj .nil))).length
      ∧ frame.drop 8 = utf8Encode (jser (.jobj .nil))
      ∧ unpackII (frame.take 8) = some (OP_FRAME, (frame.drop 8).length)
      ∧ OP_HANDSHAKE = 0 ∧ OP_FRAME = 1 ∧ OP_CLOSE = 2 ∧ OP_PING = 3 ∧ OP_PONG = 4 :=
  send_wire_format OP_FRAME (.jobj .nil) (by decide) (by decide)

/-- Counterexample to claim C8.  A frame carrying the unrecognised opcode
5 is decoded without any error: `recv` returns the raw value 5 to its
caller instead of surfacing a decode error. -/
theorem recv_unknown_opcode_not_rejected :
    recvBytes ((packLE4 5 ++ packLE4 2) ++ [123, 125]) = some (5, .jobj .nil)
      ∧ ¬ (5 = OP_HANDSHAKE ∨ 5 = OP_FRAME ∨ 5 = OP_CLOSE ∨ 5 = OP_PING ∨ 5 = OP_PONG) := by
  decide

/-- Claim C8, amended.  `recv` performs no opcode validation at all: every
32-bit header opcode outside the five recognised values is passed through
unchanged to the caller together with the decoded payload, and no decode
error is raised. -/
theorem recv_opcode_passthrough (op : Nat) (hop : op < 4294967296) (hk : 4 < op) :
    ¬ (op = OP_HANDSHAKE ∨ op = OP_FRAME ∨ op = OP_CLOSE ∨ op = OP_PING ∨ op = OP_PONG)
      ∧ recvBytes ((packLE4 op ++ packLE4 2) ++ [123, 125]) = some (op, .jobj .nil) := by
  constructor
  · intro h
    rcases h with rfl | rfl | rfl | rfl | rfl <;> exact absurd hk (by decide)
  · have h2 : utf8Encode (jser (JVal.jobj .nil)) = [123, 125] := by decide
    have h3 := recvBytes_wire op (.jobj .nil) hop (by rw [h2]; decide)
    rw [h2] at h3
    exact h3

/-- Witness for the amended C8 at the unrecognised opcode 6. -/
theorem recv_opcode_passthrough_witness :
    ¬ (6 = OP_HANDSHAKE ∨ 6 = OP_FRAME ∨ 6 = OP_CLOSE ∨ 6 = OP_PING ∨ 6 = OP_PONG)
      ∧ recvBytes ((packLE4 6 ++ packLE4 2) ++ [123, 125]) = some (6, .jobj .nil) :=
  recv_opcode_passthrough 6 (by decide) (by decide)

/-- Claim C9.  `set_activity` sends exactly one frame, with opcode Frame,
whose payload is the envelope dict with cmd = SET_ACTIVITY, args holding
the process id and the activity passed through unmodified, and a non-empty
nonce rendered from the call's fresh uuid4 draw; two calls whose masked
uuid4 draws differ produce different nonce strings. -/
theorem set_activity_envelope (pid : Int) (act : JVal) (r1 r2 : Nat)
    (hne : uuid4Mask r1 ≠ uuid4Mask r2) :
    (∃ kvs, setActivityFrames pid r1 act = [(OP_FRAME, .jobj kvs)]
      ∧ jget keyCmd kvs = some valSET_ACTIVITY
      ∧ jget keyArgs kvs
          = some (.jobj (.cons keyPid (.jint pid) (.cons keyActivity act .nil)))
      ∧ jget keyNonce kvs = some (.jstr (uuidStr (uuid4Mask r1)))
      ∧ uuidStr (uuid4Mask r1) ≠ [])
    ∧ uuidStr (uuid4Mask r1) ≠ uuidStr (uuid4Mask r2) := by
  constructor
  · exact ⟨_, rfl, rfl, rfl, rfl, uuidStr_ne_nil _⟩
  · intro h
    exact hne (uuidStr_inj _ _ (uuid4Mask_lt r1) (uuid4Mask_lt r2) h)

/-- Witness for C9 at pid 0, the null activity, and the uuid4 draws 0 and
1 (which mask to different uuids). -/
theorem set_activity_envelope_witness :
    (∃ kvs, setActivityFrames 0 0 .jnull = [(OP_FRAME, .jobj kvs)]
      ∧ jget keyCmd kvs = some valSET_ACTIVITY
      ∧ jget keyArgs kvs
          = some (.jobj (.cons keyPid (.jint 0) (.cons keyActivity .jnull .nil)))
      ∧ jget keyNonce kvs = some (.jstr (uuidStr (uuid4Mask 0)))
      ∧ uuidStr (uuid4Mask 0) ≠ [])
    ∧ uuidStr (uuid4Mask 0) ≠ uuidStr (uuid4Mask 1) :=
  set_activity_envelope 0 .jnull 0 1 (by decide)

end MathHelper
